import Mathlib

/-!
Verification development for the PyTorrent repository (tracker.py,
client.py, checksum.py).  The Python sources are shallowly embedded:
dictionaries become association lists, byte strings become `List Nat`,
the SHA-256 function is an abstract parameter `hash : List Nat → String`
(the development never depends on its internals, only on equality of
digests), and socket traffic is modelled by explicit event traces.
-/

namespace PyTorrent

/-! ## Association lists: the model of Python dictionaries.
Insertion order is kept (new keys are appended at the end), updating an
existing key keeps its position, deletion removes the entry — exactly the
observable behaviour of a `dict` whose keys are never duplicated. -/

def alGet {κ α : Type} [DecidableEq κ] : List (κ × α) → κ → Option α
  | [], _ => none
  | (k, v) :: t, q => if k = q then some v else alGet t q

def alSet {κ α : Type} [DecidableEq κ] : List (κ × α) → κ → α → List (κ × α)
  | [], q, w => [(q, w)]
  | (k, v) :: t, q, w => if k = q then (q, w) :: t else (k, v) :: alSet t q w

def alErase {κ α : Type} [DecidableEq κ] : List (κ × α) → κ → List (κ × α)
  | [], _ => []
  | (k, v) :: t, q => if k = q then t else (k, v) :: alErase t q

/-- Keys of an association list are pairwise distinct (a Python dict). -/
def NodupKeys {κ α : Type} (l : List (κ × α)) : Prop := (l.map Prod.fst).Nodup

/-! ## Data model (client.py `generate_file_metadata`, tracker.py state). -/

/-- One chunk record of the metadata sidecar: `{"id", "size", "checksum"}`. -/
structure ChunkInfo where
  id : Nat
  size : Nat
  checksum : String
deriving DecidableEq

/-- Per-file metadata: `{"size", "checksum", "chunks"}`. -/
structure FileMeta where
  size : Nat
  checksum : String
  chunks : List ChunkInfo
deriving DecidableEq

/-- One file as a seeder advertises it to the tracker:
`{"filename", "size", "checksum"}` parsed from the REGISTER JSON payload. -/
structure FileInfoT where
  filename : String
  size : Nat
  checksum : String
deriving DecidableEq

/-- A peer address as the tracker sees it: `(host, udp_port)`. -/
abbrev Addr := String × Nat

/-- A tracker-side peer record (value of `active_peers[peer_address]`). -/
structure PeerRecord where
  username : String
  last_activity : Nat
  ptype : String
  files : List FileInfoT
deriving DecidableEq

/-- One tracker-side file-repository entry
(`{"peer_address", "size", "checksum"}`). -/
structure RepoEntry where
  peer_address : Addr
  size : Nat
  checksum : String
deriving DecidableEq

/-- The tracker's mutable state (`Tracker.__init__`). -/
structure TrackerState where
  active_peers : List (Addr × PeerRecord)
  file_repository : List (String × List RepoEntry)
  peer_timeout : Nat
  peer_limit : Nat
deriving DecidableEq

/-- A fresh tracker: empty peer table and repository. -/
def initTracker (peer_timeout peer_limit : Nat) : TrackerState :=
  ⟨[], [], peer_timeout, peer_limit⟩

/-! ## String helpers mirroring Python formatting. -/

/-- Python `str` of an address tuple, as interpolated into responses:
`('host', port)`. Quote escaping inside the host string is not modelled. -/
def pyStrAddr (a : Addr) : String :=
  "('" ++ a.1 ++ "', " ++ toString a.2 ++ ")"

/-- Python `repr` of the parsed file list, as interpolated into the
seeder-registration response. -/
def pyReprFiles (files : List FileInfoT) : String :=
  "[" ++ String.intercalate ", " (files.map (fun fi =>
    "\x7b'filename': '" ++ fi.filename ++ "', 'size': " ++ toString fi.size ++
      ", 'checksum': '" ++ fi.checksum ++ "'\x7d")) ++ "]"

/-- One hexadecimal digit (lower case). -/
def hexDigit (n : Nat) : Char :=
  if n < 10 then Char.ofNat (48 + n) else Char.ofNat (87 + n)

/-- Four hexadecimal digits, as in a JSON `\uXXXX` escape. -/
def hex4 (n : Nat) : String :=
  String.mk [hexDigit (n / 4096 % 16), hexDigit (n / 256 % 16),
    hexDigit (n / 16 % 16), hexDigit (n % 16)]

/-- How `json.dumps` (defaults: `ensure_ascii=True`) escapes one character. -/
def jsonEscapeChar (c : Char) : String :=
  if c = '"' then "\\\""
  else if c = '\\' then "\\\\"
  else if c = '\n' then "\\n"
  else if c = '\t' then "\\t"
  else if c = '\r' then "\\r"
  else if c.toNat = 8 then "\\b"
  else if c.toNat = 12 then "\\f"
  else if c.toNat < 32 then "\\u" ++ hex4 c.toNat
  else if c.toNat < 128 then String.singleton c
  else if c.toNat < 65536 then "\\u" ++ hex4 c.toNat
  else
    "\\u" ++ hex4 (55296 + (c.toNat - 65536) / 1024) ++
      "\\u" ++ hex4 (56320 + (c.toNat - 65536) % 1024)

/-- `json.dumps` of a string. -/
def jsonStr (s : String) : String :=
  "\"" ++ String.join (s.toList.map jsonEscapeChar) ++ "\""

/-- `json.dumps` of an address tuple (a JSON array). -/
def jsonAddr (a : Addr) : String :=
  "[" ++ jsonStr a.1 ++ ", " ++ toString a.2 ++ "]"

/-! ## Tracker operations (tracker.py).
Each handler is the body of the corresponding method, with the response
datagram returned instead of sent. -/

/-- The entries `register_peer` adds under key `fname` for one REGISTER:
one per advertised file whose (truthy) filename equals `fname`, in order. -/
def newSeedEntries (addr : Addr) (files : List FileInfoT) (fname : String) :
    List RepoEntry :=
  (files.filter (fun fi => fi.filename = fname ∧ fi.filename ≠ "")).map
    (fun fi => ⟨addr, fi.size, fi.checksum⟩)

/-- `register_peer`: append one repository entry for one advertised file
(`self.file_repository[filename].append(...)`, creating the key if absent). -/
def addRepoEntry (repo : List (String × List RepoEntry)) (addr : Addr)
    (fi : FileInfoT) : List (String × List RepoEntry) :=
  alSet repo fi.filename ((alGet repo fi.filename).getD [] ++
    [⟨addr, fi.size, fi.checksum⟩])

/-- One iteration of the `register_peer` file loop: skip entries whose
filename is falsy (`if filename:`), otherwise append a repository entry. -/
def regFileStep (addr : Addr) (acc : List (String × List RepoEntry))
    (fi : FileInfoT) : List (String × List RepoEntry) :=
  if fi.filename = "" then acc else addRepoEntry acc addr fi

/-- `register_peer`: the loop over `files` that fills the repository. -/
def regAddFiles (repo : List (String × List RepoEntry)) (addr : Addr)
    (files : List FileInfoT) : List (String × List RepoEntry) :=
  files.foldl (regFileStep addr) repo

/-- `Tracker.register_peer` (tracker.py lines 191-230). Admission is checked
against `peer_limit`; on success the record for the address is overwritten
(rebinding) and, for a seeder with files, repository entries are appended.
The response string mirrors the Python f-strings; the `500` text is the
initial `response_message`, reached only when a seeder's file list is
non-empty but no entry has a truthy filename. -/
def register_peer (s : TrackerState) (peer_address : Addr) (peer_type : String)
    (files : List FileInfoT) (username : String) (now : Nat) :
    TrackerState × String :=
  if s.active_peers.length < s.peer_limit then
    let record : PeerRecord :=
      ⟨username, now, peer_type, if peer_type = "seeder" then files else []⟩
    let peers2 := alSet s.active_peers peer_address record
    if peer_type = "seeder" ∧ files ≠ [] then
      let repo2 := regAddFiles s.file_repository peer_address files
      let response :=
        if files.any (fun fi => fi.filename ≠ "") then
          "201 Created: Client '" ++ username ++ "' with address " ++
            pyStrAddr peer_address ++ " successfully registered as a " ++
            peer_type ++ " with files: " ++ pyReprFiles files
        else "500 Internal Server Error: Unexpected error occurred."
      ({ s with active_peers := peers2, file_repository := repo2 }, response)
    else
      ({ s with active_peers := peers2 },
        "201 Created: Client '" ++ username ++ "' with address " ++
          pyStrAddr peer_address ++ " successfully registered as a " ++ peer_type)
  else
    (s, "403 Forbidden: Client limit reached, registration denied.")

/-- `Tracker.remove_peer` / `remove_inactive_peers`: drop the peer's entries
from the repository (`if filename in self.file_repository`: filter out this
address; delete the key if the list becomes empty). Only seeders have their
files walked. -/
def rmFileStep (addr : Addr) (acc : List (String × List RepoEntry))
    (fi : FileInfoT) : List (String × List RepoEntry) :=
  match alGet acc fi.filename with
  | none => acc
  | some entries =>
    let entries2 := entries.filter (fun e => e.peer_address ≠ addr)
    if entries2 = [] then alErase acc fi.filename
    else alSet acc fi.filename entries2

/-- The loop of `remove_peer` / `remove_inactive_peers` over the departing
seeder's file list. -/
def removeFilesOfPeer (repo : List (String × List RepoEntry)) (addr : Addr)
    (files : List FileInfoT) : List (String × List RepoEntry) :=
  files.foldl (rmFileStep addr) repo

/-- The shared removal step of `remove_peer` and `remove_inactive_peers`:
clean the repository (for a seeder) and delete the peer record. -/
def erasePeer (s : TrackerState) (addr : Addr) (r : PeerRecord) : TrackerState :=
  { s with
    active_peers := alErase s.active_peers addr,
    file_repository :=
      if r.ptype = "seeder" then removeFilesOfPeer s.file_repository addr r.files
      else s.file_repository }

/-- `Tracker.remove_peer` (tracker.py lines 320-350). -/
def remove_peer (s : TrackerState) (addr : Addr) (username : String) :
    TrackerState × String :=
  match alGet s.active_peers addr with
  | some r =>
    (erasePeer s addr r,
      "200 OK: Client '" ++ username ++ "' with address " ++ pyStrAddr addr ++
        " successfully disconnected from the tracker")
  | none => (s, "403 Forbidden: Peer " ++ pyStrAddr addr ++ " not found.")

/-- `Tracker.keep_peer_alive` (tracker.py lines 385-405). -/
def keep_peer_alive (s : TrackerState) (addr : Addr) (username : String)
    (now : Nat) : TrackerState × String :=
  match alGet s.active_peers addr with
  | some r =>
    let r2 : PeerRecord := { r with last_activity := now }
    ({ s with active_peers := alSet s.active_peers addr r2 },
      "200 OK: Successfully updated last activity time for client '" ++
        username ++ "' with address " ++ pyStrAddr addr ++ ".")
  | none =>
    (s, "403 Forbidden: Peer not found in active list: " ++ pyStrAddr addr)

/-- One iteration of the `remove_inactive_peers` loop: look the key up in
the current table and remove the peer when its record has timed out
(`current_time - last_activity > peer_timeout`, in `Nat` arithmetic). The
`none` branch is unreachable (each key is visited once and only its own
iteration removes it) and returns the state unchanged. -/
def sweepBody (now : Nat) (acc : TrackerState) (p : Addr × PeerRecord) :
    TrackerState :=
  match alGet acc.active_peers p.1 with
  | some r =>
    if acc.peer_timeout < now - r.last_activity then erasePeer acc p.1 r
    else acc
  | none => acc

/-- One pass of `Tracker.remove_inactive_peers` at time `now`: iterate over a
snapshot of the keys (`list(self.active_peers.keys())`), removing each peer
whose record has timed out. -/
def remove_inactive_peers_once (s : TrackerState) (now : Nat) : TrackerState :=
  s.active_peers.foldl (sweepBody now) s

/-- `Tracker.get_peers_for_file` (tracker.py lines 247-271): a JSON object on
success, `json.dumps` of a plain `404` string otherwise. When the stored
seeder list is empty, `seeders[0]` raises IndexError and no datagram is sent
(`none`); such a state is unreachable because empty keys are deleted. -/
def get_peers_response (s : TrackerState) (filename : String) : Option String :=
  match alGet s.file_repository filename with
  | some seeders =>
    match seeders with
    | [] => none
    | first :: _ =>
      some ("\x7b\"status\": \"200 OK\", \"filename\": " ++ jsonStr filename ++
        ", \"size\": " ++ toString first.size ++ ", \"checksum\": " ++
        jsonStr first.checksum ++ ", \"seeders\": [" ++
        String.intercalate ", " (seeders.map (fun e => jsonAddr e.peer_address)) ++
        "]\x7d")
  | none => some (jsonStr ("404 Not Found: File not available: " ++ filename))

/-- `Tracker.list_active_peers` (tracker.py lines 273-300): `json.dumps` of
`{'seeders': [...], 'leechers': [...]}`, each element
`{'peer': address, 'username': username}`. -/
def list_active_response (s : TrackerState) : String :=
  let entry := fun (p : Addr × PeerRecord) =>
    "\x7b\"peer\": " ++ jsonAddr p.1 ++ ", \"username\": " ++
      jsonStr p.2.username ++ "\x7d"
  "\x7b\"seeders\": [" ++
    String.intercalate ", "
      ((s.active_peers.filter (fun p => p.2.ptype = "seeder")).map entry) ++
    "], \"leechers\": [" ++
    String.intercalate ", "
      ((s.active_peers.filter (fun p => p.2.ptype = "leecher")).map entry) ++
    "]\x7d"

/-- `Tracker.list_available_files` (tracker.py lines 302-318): `json.dumps`
of `{filename: first_entry_size}` over non-empty repository values. -/
def list_files_response (s : TrackerState) : String :=
  "\x7b" ++
    String.intercalate ", " (s.file_repository.filterMap (fun p =>
      match p.2 with
      | [] => none
      | e :: _ => some (jsonStr p.1 ++ ": " ++ toString e.size))) ++
  "\x7d"

/-- Outcome of `json.loads` on a REGISTER payload, as
`handle_register_requests` inspects it: a parse failure, a JSON object with
no "files" field, or the parsed file list. The JSON library is external to
the repository, so it enters the model as an oracle argument. -/
inductive JsonFilesParse where
  | parseError
  | noFilesField
  | files (fs : List FileInfoT)

/-- `Tracker.handle_register_requests` (tracker.py lines 148-189). -/
def handle_register_requests (jparse : String → JsonFilesParse)
    (s : TrackerState) (split_request : List String) (peer_address : Addr)
    (now : Nat) : TrackerState × String :=
  match split_request with
  | _ :: peer_type :: username :: restJson =>
    if peer_type ≠ "seeder" ∧ peer_type ≠ "leecher" then
      (s, "400 Bad Request: Invalid peer type. Use 'seeder' or 'leecher'.")
    else if peer_type = "seeder" then
      match restJson with
      | [] => (s, "400 Bad Request: Missing JSON metadata for seeder.")
      | _ :: _ =>
        match jparse (String.intercalate " " restJson) with
        | .parseError => (s, "400 Bad Request: Invalid JSON format in metadata.")
        | .noFilesField =>
          (s, "400 Bad Request: Invalid JSON metadata. 'files' field is missing.")
        | .files fs => register_peer s peer_address "seeder" fs username now
    else register_peer s peer_address "leecher" [] username now
  | _ =>
    (s, "400 Bad Request: Usage: REGISTER <seeder|leecher> <username> [JSON file data]")

/-- Helper for `pySplit`: walk the characters, accumulating the current
word (reversed); whitespace flushes the word, and empty words are
discarded. -/
def pySplitAux : List Char → List Char → List String
  | [], cur => if cur = [] then [] else [String.mk cur.reverse]
  | c :: cs, cur =>
    if c.isWhitespace then
      (if cur = [] then [] else [String.mk cur.reverse]) ++ pySplitAux cs []
    else pySplitAux cs (c :: cur)

/-- Python `str.split()` with no argument: split on runs of whitespace,
discarding empty pieces. -/
def pySplit (msg : String) : List String :=
  pySplitAux msg.toList []

/-- `Tracker.process_peer_requests` (tracker.py lines 108-146): dispatch on
the first whitespace-separated token; any unknown request type (including
`UPDATE_FILES` and `CHANGE_USERNAME`, which have no handler) is answered
with the literal `400` unknown-request error. The returned `Option String`
is the response datagram; `none` means the handler thread died without
sending one. -/
def dispatchSplit (jparse : String → JsonFilesParse) (s : TrackerState)
    (request_message : String) (peer_address : Addr) (now : Nat)
    (split_request : List String) : TrackerState × Option String :=
  match split_request with
  | [] => (s, some ("400 Empty request from peer: " ++ request_message))
  | request_type :: rest =>
    if request_type = "REGISTER" then
      let (s2, resp) :=
        handle_register_requests jparse s split_request peer_address now
      (s2, some resp)
    else if request_type = "LIST_ACTIVE" then
      (s, some (list_active_response s))
    else if request_type = "LIST_FILES" then
      (s, some (list_files_response s))
    else if request_type = "DISCONNECT" then
      let username := match rest with | [u] => u | _ => "unknown"
      let (s2, resp) := remove_peer s peer_address username
      (s2, some resp)
    else if request_type = "KEEP_ALIVE" then
      let username := match rest with | [u] => u | _ => "unknown"
      let (s2, resp) := keep_peer_alive s peer_address username now
      (s2, some resp)
    else if request_type = "PING" then
      (s, some "200 OK: PONG")
    else if request_type = "GET_PEERS" then
      match rest with
      | [] => (s, some "400 Bad Request: Usage: GET_PEERS <filename>")
      | filename :: _ => (s, get_peers_response s filename)
    else
      (s, some "400 Bad Request: Unknown request type.")

/-- The entry point: split the datagram on whitespace, then dispatch. -/
def process_peer_requests (jparse : String → JsonFilesParse) (s : TrackerState)
    (request_message : String) (peer_address : Addr) (now : Nat) :
    TrackerState × Option String :=
  dispatchSplit jparse s request_message peer_address now
    (pySplit request_message)

/-! ## The tracker as a transition system.
The four operations that mutate tracker state (the other handlers are
read-only, as `process_peer_requests` above shows), for reachability
statements. -/

inductive TrackerReq where
  | register (addr : Addr) (ptype : String) (files : List FileInfoT)
      (username : String) (now : Nat)
  | keepAlive (addr : Addr) (username : String) (now : Nat)
  | disconnect (addr : Addr) (username : String)
  | sweep (now : Nat)
deriving DecidableEq

def trackerStep (s : TrackerState) : TrackerReq → TrackerState
  | .register a t fs u now => (register_peer s a t fs u now).1
  | .keepAlive a u now => (keep_peer_alive s a u now).1
  | .disconnect a u => (remove_peer s a u).1
  | .sweep now => remove_inactive_peers_once s now

def trackerRun (s : TrackerState) (rs : List TrackerReq) : TrackerState :=
  rs.foldl trackerStep s

/-- A request sequence in which every REGISTER comes from an address with no
current record and advertises only truthy filenames. -/
def goodRun (s : TrackerState) : List TrackerReq → Bool
  | [] => true
  | r :: rs =>
    (match r with
     | .register addr _ files _ _ =>
       (alGet s.active_peers addr).isNone &&
         files.all (fun fi => fi.filename ≠ "")
     | _ => true) && goodRun (trackerStep s r) rs

/-! ## checksum.py -/

/-- The attributes of a CPython `hashlib.sha256()` hash object. Looking up
any other name raises `AttributeError`. -/
def sha256ObjectAttrs : List String :=
  ["update", "digest", "hexdigest", "copy", "name", "digest_size", "block_size"]

/-- Result of a Python call: a value, or an uncaught exception. -/
inductive PyResult (α : Type) where
  | ok (a : α)
  | exn (kind : String)
deriving DecidableEq

/-- `compute_checksum` (checksum.py lines 10-17): evaluates
`hashlib.sha256(message.encode()).hexidigest()`. The attribute access is
modelled by a lookup in `sha256ObjectAttrs`; `sha256hex` stands for the hex
digest the intact code would produce. -/
def compute_checksum (sha256hex : String → String) (message : String) :
    PyResult String :=
  if "hexidigest" ∈ sha256ObjectAttrs then .ok (sha256hex message)
  else .exn "AttributeError"

/-! ## client.py: metadata generation (`generate_file_metadata`). -/

/-- The successive `file.read(chunk_size)` results on a file holding
`content`: non-empty slices of at most `chunk_size` bytes. `read(0)`
returns the empty byte string, ending the loop at once. -/
def splitChunks (chunk_size : Nat) (content : List Nat) : List (List Nat) :=
  if _h : chunk_size = 0 then []
  else if _h2 : content = [] then []
  else content.take chunk_size :: splitChunks chunk_size (content.drop chunk_size)
termination_by content.length
decreasing_by
  simp only [List.length_drop]
  exact Nat.sub_lt (List.length_pos.mpr _h2) (Nat.pos_of_ne_zero _h)

/-- `Client.generate_file_metadata` (client.py lines 677-716): total size from
`os.path.getsize`, whole-file digest streamed over the reads (equal to the
digest of their concatenation), then one `ChunkInfo` per read with a dense
zero-based id. -/
def generate_file_metadata (hash : List Nat → String) (content : List Nat)
    (chunk_size : Nat) : FileMeta :=
  { size := content.length,
    checksum := hash (splitChunks chunk_size content).flatten,
    chunks := (splitChunks chunk_size content).enum.map
      (fun p => ⟨p.1, p.2.length, hash p.2⟩) }

/-! ## client.py: serving chunks (`get_chunk`). -/

/-- Python list indexing `l[i]`: non-negative indices from the front,
negative indices from the back, `none` for an `IndexError`. -/
def pyIndex {α : Type} (l : List α) (i : Int) : Option α :=
  if 0 ≤ i then l.get? i.toNat
  else if -(l.length : Int) ≤ i then l.get? (l.length - (-i).toNat)
  else none

/-- What `Client.get_chunk` produces: `None`, chunk bytes (with the flag of
the checksum-mismatch warning), or an IndexError that escapes the method
(the metadata subscript stands before the `try` block). -/
inductive GetChunkResult where
  | noChunk
  | chunk (bytes : List Nat) (checksumWarned : Bool)
  | indexError
deriving DecidableEq

/-- `Client.get_chunk` (client.py lines 518-562). `fileChunks` is the
`shared_files.json` map, `fileData` the shared directory's file contents.
The read offset is the prefix sum `for i in range(chunk_id)` of prior chunk
sizes; the per-chunk digest is recomputed and compared, and the bytes are
returned whether or not it matches. -/
def get_chunk (hash : List Nat → String)
    (fileChunks : List (String × FileMeta))
    (fileData : List (String × List Nat))
    (filename : String) (chunk_id : Int) : GetChunkResult :=
  match alGet fileChunks filename with
  | none => .noChunk
  | some meta =>
    let chunks := meta.chunks
    if (chunks.length : Int) ≤ chunk_id then .noChunk
    else
      match pyIndex chunks chunk_id with
      | none => .indexError
      | some cm =>
        match alGet fileData filename with
        | none => .noChunk
        | some content =>
          let start := ((chunks.take chunk_id.toNat).map (fun c => c.size)).sum
          let bytes := (content.drop start).take cm.size
          .chunk bytes (hash bytes ≠ cm.checksum)

/-! ## client.py: fetching chunks (`request_chunk`, `download_chunk_worker`). -/

/-- The ASCII bytes of the `CHUNK_NOT_FOUND` sentinel. -/
def chunkNotFoundBytes : List Nat :=
  [67, 72, 85, 78, 75, 95, 78, 79, 84, 95, 70, 79, 85, 78, 68]

/-- One `sock.recv` outcome seen by `request_chunk`: some bytes (empty means
the peer closed the connection), or a raised timeout. -/
inductive RecvEvent where
  | bytes (b : List Nat)
  | timeoutExc
deriving DecidableEq

/-- What `request_chunk` returns: `None`, or a byte string (the code also
returns partial byte strings). -/
inductive FetchResult where
  | failed
  | data (b : List Nat)
deriving DecidableEq

/-- The receive loop of `Client.request_chunk` (client.py lines 394-424) over
a trace of recv outcomes. An exhausted trace means no further data ever
arrives, so the pending `recv` raises a timeout. A raised timeout always
yields `failed`: the handler `except socket.timeout` names the socket
class's `timeout` getset descriptor (the module-level exception is shadowed
by `from socket import *`), so matching it raises `TypeError`, which the
outer `except Exception` turns into `return None` — the partial-return
branch under the timeout handler is unreachable. A connection closed early
(`if not data: break`) leaves the loop and returns the bytes received so
far, partial or not. -/
def recvLoop (chunk_size : Nat) (received : List Nat) :
    List RecvEvent → FetchResult
  | [] =>
    if received.length < chunk_size then .failed else .data received
  | e :: rest =>
    if received.length < chunk_size then
      match e with
      | .timeoutExc => .failed
      | .bytes b =>
        if received.length = 0 ∧ b = chunkNotFoundBytes then .failed
        else if b = [] then .data received
        else recvLoop chunk_size (received ++ b) rest
    else .data received

/-- `Client.request_chunk` for one chunk over a recv trace. -/
def request_chunk (chunk_size : Nat) (events : List RecvEvent) : FetchResult :=
  recvLoop chunk_size [] events

/-- How `Client.download_chunk_worker` (client.py lines 341-376) treats one
fetch outcome: a truthy byte string is written to the part file and recorded
in `downloaded_chunks`; `None` or an empty byte string marks the seeder
unavailable and requeues the chunk id. -/
structure WorkerEffect where
  recorded : Bool
  markedUnavailable : Bool
  requeued : Bool
deriving DecidableEq

def download_chunk_worker_step (r : FetchResult) : WorkerEffect :=
  match r with
  | .data b => if b = [] then ⟨false, true, true⟩ else ⟨true, false, false⟩
  | .failed => ⟨false, true, true⟩

/-! ## client.py: reassembly and final verification
(`reassemble_file`, tail of `download_file`). -/

/-- Insert into an ascending list (helper for Python `sorted`). -/
def insertAsc (n : Nat) : List Nat → List Nat
  | [] => [n]
  | m :: t => if n ≤ m then n :: m :: t else m :: insertAsc n t

/-- Python `sorted` on the keys of `downloaded_chunks`. -/
def sortAsc (l : List Nat) : List Nat := l.foldr insertAsc []

/-- The observable outcome of `Client.reassemble_file` (client.py lines
616-651): the concatenated output, the checksum comparison it performed (the
expected and actual digests) when the filename was present in the client's
own `file_chunks`, and the unconditional completion log. -/
structure ReassembleResult where
  output : List Nat
  verification : Option (String × String)
  downloadComplete : Bool
deriving DecidableEq

/-- `Client.reassemble_file`: concatenate the downloaded chunks in ascending
chunk-id order; if (and only if) `filename in self.file_chunks`, compare the
client's own stored whole-file checksum with the digest of the output; in
every case finish with `Download complete`. -/
def reassemble_file (hash : List Nat → String)
    (fileChunks : List (String × FileMeta)) (filename : String)
    (downloaded : List (Nat × List Nat)) : ReassembleResult :=
  let output :=
    ((sortAsc (downloaded.map Prod.fst)).map
      (fun i => (alGet downloaded i).getD [])).flatten
  { output := output,
    verification :=
      (alGet fileChunks filename).map (fun m => (m.checksum, hash output)),
    downloadComplete := true }

/-- Outcome of the end of `Client.download_file` (client.py lines 324-339). -/
inductive DownloadOutcome where
  | incomplete
  | success (r : ReassembleResult)
deriving DecidableEq

/-- The tail of `Client.download_file`: abort when the completed map is
short of `total_chunks`, otherwise reassemble (and then offer re-seeding —
the download is reported as completed successfully either way). -/
def download_finish (hash : List Nat → String)
    (fileChunks : List (String × FileMeta)) (filename : String)
    (total_chunks : Nat) (downloaded : List (Nat × List Nat)) :
    DownloadOutcome :=
  if downloaded.length ≠ total_chunks then .incomplete
  else .success (reassemble_file hash fileChunks filename downloaded)

/-! ## Specification artifacts used by the theorems below. -/

/-- Effect of one peer's removal on one repository value (the filter /
delete-if-empty step of `remove_peer` and `remove_inactive_peers`). -/
def dropAddrEntries (addr : Addr) (o : Option (List RepoEntry)) :
    Option (List RepoEntry) :=
  match o with
  | none => none
  | some l =>
    let l2 := l.filter (fun e => e.peer_address ≠ addr)
    if l2 = [] then none else some l2

/-- Effect of one seeder registration on one repository value: append the
new entries (creating the key when there are any). -/
def combineEntries (old : Option (List RepoEntry)) (new : List RepoEntry) :
    Option (List RepoEntry) :=
  if new = [] then old else some (old.getD [] ++ new)

/-- Every repository entry points at a currently registered seeder that
advertises the file. -/
def RepoSound (s : TrackerState) : Prop :=
  ∀ fname l, alGet s.file_repository fname = some l →
    l ≠ [] ∧ ∀ e ∈ l, ∃ r, alGet s.active_peers e.peer_address = some r ∧
      r.ptype = "seeder" ∧ ∃ fi ∈ r.files, fi.filename = fname

/-- Every file a registered seeder advertises has a repository entry of
that seeder. -/
def RepoComplete (s : TrackerState) : Prop :=
  ∀ a r, alGet s.active_peers a = some r → r.ptype = "seeder" →
    ∀ fi ∈ r.files, ∃ l, alGet s.file_repository fi.filename = some l ∧
      ∃ e ∈ l, e.peer_address = a

/-- The tracker-state invariant maintained by fresh registrations,
keep-alives, disconnects and sweeps. -/
def TrackerInv (s : TrackerState) : Prop :=
  RepoSound s ∧ RepoComplete s ∧
    NodupKeys s.active_peers ∧ NodupKeys s.file_repository

/-- A single seeder registration from `("h", 1)` advertising `F1`. -/
def regDemoRun : List TrackerReq :=
  [.register ("h", 1) "seeder" [⟨"F1", 5, "c1"⟩] "alice" 0]

/-- The same address re-registers with a different file list: the record is
rebound but the repository keeps the entries of the first registration. -/
def rebindDemo : TrackerState :=
  trackerRun (initTracker 30 10)
    [.register ("h", 1) "seeder" [⟨"F1", 5, "c1"⟩] "alice" 0,
     .register ("h", 1) "seeder" [⟨"F2", 6, "c2"⟩] "alice" 1]

/-! # Theorems -/

/-! ## Association-list lemmas. -/

theorem alGet_alSet_self {κ α : Type} [DecidableEq κ] (l : List (κ × α))
    (k : κ) (v : α) : alGet (alSet l k v) k = some v := by
  induction l with
  | nil => simp [alSet, alGet]
  | cons p t ih =>
    obtain ⟨k1, v1⟩ := p
    by_cases h : k1 = k
    · simp [alSet, h, alGet]
    · simp [alSet, h, alGet, ih]

theorem alGet_alSet_ne {κ α : Type} [DecidableEq κ] (l : List (κ × α))
    (k q : κ) (v : α) (hne : q ≠ k) : alGet (alSet l k v) q = alGet l q := by
  have hkq : k ≠ q := Ne.symm hne
  induction l with
  | nil => simp [alSet, alGet, hkq]
  | cons p t ih =>
    obtain ⟨k1, v1⟩ := p
    by_cases h : k1 = k
    · subst h
      simp [alSet, alGet, hkq]
    · simp only [alSet, if_neg h, alGet]
      by_cases h2 : k1 = q
      · simp [h2]
      · simp [h2, ih]

theorem alGet_alErase_ne {κ α : Type} [DecidableEq κ] (l : List (κ × α))
    (k q : κ) (hne : q ≠ k) : alGet (alErase l k) q = alGet l q := by
  have hkq : k ≠ q := Ne.symm hne
  induction l with
  | nil => simp [alErase]
  | cons p t ih =>
    obtain ⟨k1, v1⟩ := p
    by_cases h : k1 = k
    · subst h
      simp [alErase, alGet, hkq]
    · simp only [alErase, if_neg h, alGet]
      by_cases h2 : k1 = q
      · simp [h2]
      · simp [h2, ih]

theorem alGet_eq_none_of_not_mem {κ α : Type} [DecidableEq κ]
    (l : List (κ × α)) (k : κ) (h : k ∉ l.map Prod.fst) : alGet l k = none := by
  induction l with
  | nil => simp [alGet]
  | cons p t ih =>
    obtain ⟨k1, v1⟩ := p
    simp only [List.map_cons, List.mem_cons, not_or] at h
    have h1 : k1 ≠ k := Ne.symm h.1
    simp [alGet, h1, ih h.2]

theorem not_mem_of_alGet_eq_none {κ α : Type} [DecidableEq κ]
    (l : List (κ × α)) (k : κ) (h : alGet l k = none) : k ∉ l.map Prod.fst := by
  induction l with
  | nil => simp
  | cons p t ih =>
    obtain ⟨k1, v1⟩ := p
    simp only [alGet] at h
    by_cases he : k1 = k
    · simp [he] at h
    · simp only [if_neg he] at h
      simp only [List.map_cons, List.mem_cons, not_or]
      exact ⟨fun hq => he hq.symm, ih h⟩

theorem alGet_alErase_self {κ α : Type} [DecidableEq κ] (l : List (κ × α))
    (k : κ) (h : NodupKeys l) : alGet (alErase l k) k = none := by
  induction l with
  | nil => simp [alErase, alGet]
  | cons p t ih =>
    obtain ⟨k1, v1⟩ := p
    simp only [NodupKeys, List.map_cons, List.nodup_cons] at h
    by_cases he : k1 = k
    · subst he
      simpa [alErase] using alGet_eq_none_of_not_mem t k1 h.1
    · simp [alErase, he, alGet, ih h.2]

theorem alGet_mem {κ α : Type} [DecidableEq κ] (l : List (κ × α)) (k : κ)
    (v : α) (h : alGet l k = some v) : (k, v) ∈ l := by
  induction l with
  | nil => simp [alGet] at h
  | cons p t ih =>
    obtain ⟨k1, v1⟩ := p
    simp only [alGet] at h
    by_cases he : k1 = k
    · subst he
      have hv : v1 = v := by simpa using h
      subst hv
      exact List.mem_cons_self _ _
    · simp only [if_neg he] at h
      simp [ih h]

theorem mem_alGet {κ α : Type} [DecidableEq κ] (l : List (κ × α)) (k : κ)
    (v : α) (hnd : NodupKeys l) (hm : (k, v) ∈ l) : alGet l k = some v := by
  induction l with
  | nil => simp at hm
  | cons p t ih =>
    obtain ⟨k1, v1⟩ := p
    simp only [NodupKeys, List.map_cons, List.nodup_cons] at hnd
    rcases List.mem_cons.mp hm with he | hm2
    · injection he with h1 h2
      subst h1
      subst h2
      simp [alGet]
    · have hk : k1 ≠ k := by
        intro he
        exact hnd.1 (he ▸ List.mem_map_of_mem Prod.fst hm2)
      simp [alGet, hk, ih hnd.2 hm2]

theorem alSet_eq_append {κ α : Type} [DecidableEq κ] (l : List (κ × α))
    (k : κ) (v : α) (h : alGet l k = none) : alSet l k v = l ++ [(k, v)] := by
  induction l with
  | nil => simp [alSet]
  | cons p t ih =>
    obtain ⟨k1, v1⟩ := p
    simp only [alGet] at h
    by_cases he : k1 = k
    · simp [he] at h
    · simp only [if_neg he] at h
      simp [alSet, he, ih h]

theorem length_alSet {κ α : Type} [DecidableEq κ] (l : List (κ × α)) (k : κ)
    (v : α) :
    (alSet l k v).length =
      if (alGet l k).isSome then l.length else l.length + 1 := by
  induction l with
  | nil => simp [alSet, alGet]
  | cons p t ih =>
    obtain ⟨k1, v1⟩ := p
    by_cases he : k1 = k
    · simp [alSet, alGet, he]
    · simp only [alSet, if_neg he, alGet, List.length_cons, ih]
      by_cases hs : (alGet t k).isSome <;> simp [hs]

theorem alErase_sublist {κ α : Type} [DecidableEq κ] (l : List (κ × α))
    (k : κ) : (alErase l k).Sublist l := by
  induction l with
  | nil => simp [alErase]
  | cons p t ih =>
    obtain ⟨k1, v1⟩ := p
    by_cases he : k1 = k
    · rw [alErase, if_pos he]
      exact List.sublist_cons_self (k1, v1) t
    · simpa [alErase, he] using ih.cons₂ (k1, v1)

theorem length_alErase_le {κ α : Type} [DecidableEq κ] (l : List (κ × α))
    (k : κ) : (alErase l k).length ≤ l.length :=
  (alErase_sublist l k).length_le

theorem mem_keys_alSet {κ α : Type} [DecidableEq κ] (l : List (κ × α))
    (k q : κ) (v : α) :
    q ∈ (alSet l k v).map Prod.fst ↔ q ∈ l.map Prod.fst ∨ q = k := by
  induction l with
  | nil => simp [alSet]
  | cons p t ih =>
    obtain ⟨k1, v1⟩ := p
    by_cases he : k1 = k
    · subst he
      simp [alSet]
      tauto
    · simp only [alSet, if_neg he, List.map_cons, List.mem_cons, ih]
      tauto

theorem nodupKeys_alSet {κ α : Type} [DecidableEq κ] (l : List (κ × α))
    (k : κ) (v : α) (h : NodupKeys l) : NodupKeys (alSet l k v) := by
  induction l with
  | nil => simp [alSet, NodupKeys]
  | cons p t ih =>
    obtain ⟨k1, v1⟩ := p
    simp only [NodupKeys, List.map_cons, List.nodup_cons] at h
    by_cases he : k1 = k
    · subst he
      simpa [alSet, NodupKeys] using h
    · have := ih h.2
      simp only [alSet, if_neg he, NodupKeys, List.map_cons, List.nodup_cons]
      refine ⟨fun hm => ?_, this⟩
      rcases (mem_keys_alSet t k k1 v).mp hm with hm | hm
      · exact h.1 hm
      · exact he hm

theorem nodupKeys_alErase {κ α : Type} [DecidableEq κ] (l : List (κ × α))
    (k : κ) (h : NodupKeys l) : NodupKeys (alErase l k) :=
  List.Nodup.sublist ((alErase_sublist l k).map Prod.fst) h

/-! ## Repository-fold lemmas. -/

theorem filter_idem {α : Type} (l : List α) (p : α → Bool) :
    (l.filter p).filter p = l.filter p := by
  simp [List.filter_filter]

theorem dropAddrEntries_some (addr : Addr) (l : List RepoEntry) :
    dropAddrEntries addr (some l) =
      if l.filter (fun e => e.peer_address ≠ addr) = [] then none
      else some (l.filter (fun e => e.peer_address ≠ addr)) := rfl

theorem dropAddrEntries_idem (addr : Addr) (o : Option (List RepoEntry)) :
    dropAddrEntries addr (dropAddrEntries addr o) = dropAddrEntries addr o := by
  match o with
  | none => rfl
  | some l =>
    rw [dropAddrEntries_some]
    by_cases h : l.filter (fun e => e.peer_address ≠ addr) = []
    · rw [if_pos h]
      rfl
    · rw [if_neg h, dropAddrEntries_some, filter_idem, if_neg h]

theorem rmFileStep_none (addr : Addr) (fi : FileInfoT)
    (acc : List (String × List RepoEntry))
    (hget : alGet acc fi.filename = none) : rmFileStep addr acc fi = acc := by
  unfold rmFileStep
  rw [hget]

theorem rmFileStep_some (addr : Addr) (fi : FileInfoT)
    (acc : List (String × List RepoEntry)) (entries : List RepoEntry)
    (hget : alGet acc fi.filename = some entries) :
    rmFileStep addr acc fi =
      if entries.filter (fun e => e.peer_address ≠ addr) = [] then
        alErase acc fi.filename
      else alSet acc fi.filename
        (entries.filter (fun e => e.peer_address ≠ addr)) := by
  unfold rmFileStep
  rw [hget]

theorem rmFileStep_lookup (addr : Addr) (fi : FileInfoT)
    (acc : List (String × List RepoEntry)) (hnd : NodupKeys acc)
    (fname : String) :
    alGet (rmFileStep addr acc fi) fname =
      if fname = fi.filename then dropAddrEntries addr (alGet acc fname)
      else alGet acc fname := by
  cases hget : alGet acc fi.filename with
  | none =>
    rw [rmFileStep_none addr fi acc hget]
    by_cases hf : fname = fi.filename
    · rw [if_pos hf, hf, hget]
      rfl
    · rw [if_neg hf]
  | some entries =>
    by_cases h2 : entries.filter (fun e => e.peer_address ≠ addr) = []
    · rw [rmFileStep_some addr fi acc entries hget, if_pos h2]
      by_cases hf : fname = fi.filename
      · rw [if_pos hf, hf, alGet_alErase_self acc fi.filename hnd, hget,
          dropAddrEntries_some, if_pos h2]
      · rw [if_neg hf, alGet_alErase_ne acc fi.filename fname hf]
    · rw [rmFileStep_some addr fi acc entries hget, if_neg h2]
      by_cases hf : fname = fi.filename
      · rw [if_pos hf, hf, alGet_alSet_self, hget, dropAddrEntries_some,
          if_neg h2]
      · rw [if_neg hf, alGet_alSet_ne acc fi.filename fname _ hf]

theorem nodupKeys_rmFileStep (addr : Addr) (fi : FileInfoT)
    (acc : List (String × List RepoEntry)) (hnd : NodupKeys acc) :
    NodupKeys (rmFileStep addr acc fi) := by
  cases hget : alGet acc fi.filename with
  | none =>
    rw [rmFileStep_none addr fi acc hget]
    exact hnd
  | some entries =>
    rw [rmFileStep_some addr fi acc entries hget]
    by_cases h2 : entries.filter (fun e => e.peer_address ≠ addr) = []
    · rw [if_pos h2]
      exact nodupKeys_alErase acc fi.filename hnd
    · rw [if_neg h2]
      exact nodupKeys_alSet acc fi.filename _ hnd

theorem removeFilesOfPeer_lookup (addr : Addr) (files : List FileInfoT) :
    ∀ repo : List (String × List RepoEntry), NodupKeys repo → ∀ fname,
      alGet (removeFilesOfPeer repo addr files) fname =
        if fname ∈ files.map FileInfoT.filename then
          dropAddrEntries addr (alGet repo fname)
        else alGet repo fname := by
  induction files with
  | nil => intro repo _ fname; simp [removeFilesOfPeer]
  | cons fi fs ih =>
    intro repo hnd fname
    have hstep : removeFilesOfPeer repo addr (fi :: fs) =
        removeFilesOfPeer (rmFileStep addr repo fi) addr fs := rfl
    rw [hstep, ih _ (nodupKeys_rmFileStep addr fi repo hnd) fname,
      rmFileStep_lookup addr fi repo hnd fname]
    have hmemc : fname ∈ (fi :: fs).map FileInfoT.filename ↔
        fname = fi.filename ∨ fname ∈ fs.map FileInfoT.filename := by
      simp [List.map_cons, List.mem_cons, eq_comm]
    by_cases h2 : fname = fi.filename
    · by_cases h1 : fname ∈ fs.map FileInfoT.filename
      · rw [if_pos h2, if_pos h1, dropAddrEntries_idem,
          if_pos (hmemc.mpr (Or.inl h2))]
      · rw [if_pos h2, if_neg h1, if_pos (hmemc.mpr (Or.inl h2))]
    · by_cases h1 : fname ∈ fs.map FileInfoT.filename
      · rw [if_neg h2, if_pos h1, if_pos (hmemc.mpr (Or.inr h1))]
      · rw [if_neg h2, if_neg h1,
          if_neg (fun hc => (hmemc.mp hc).elim h2 h1)]

theorem nodupKeys_removeFilesOfPeer (addr : Addr) (files : List FileInfoT) :
    ∀ repo : List (String × List RepoEntry), NodupKeys repo →
      NodupKeys (removeFilesOfPeer repo addr files) := by
  induction files with
  | nil => intro repo hnd; exact hnd
  | cons fi fs ih =>
    intro repo hnd
    exact ih _ (nodupKeys_rmFileStep addr fi repo hnd)

theorem newSeedEntries_cons (addr : Addr) (fi : FileInfoT)
    (fs : List FileInfoT) (fname : String) :
    newSeedEntries addr (fi :: fs) fname =
      if fi.filename = fname ∧ fi.filename ≠ "" then
        (⟨addr, fi.size, fi.checksum⟩ : RepoEntry) :: newSeedEntries addr fs fname
      else newSeedEntries addr fs fname := by
  unfold newSeedEntries
  rw [List.filter_cons]
  by_cases h : fi.filename = fname ∧ fi.filename ≠ ""
  · rw [if_pos (decide_eq_true h), if_pos h, List.map_cons]
  · rw [if_neg (fun hc => h (of_decide_eq_true hc)), if_neg h]

theorem combineEntries_cons (old : Option (List RepoEntry)) (e : RepoEntry)
    (rest : List RepoEntry) :
    combineEntries (some (old.getD [] ++ [e])) rest =
      combineEntries old (e :: rest) := by
  match rest with
  | [] => simp [combineEntries]
  | r :: rs => simp [combineEntries]

theorem regFileStep_lookup (addr : Addr) (fi : FileInfoT)
    (acc : List (String × List RepoEntry)) (fname : String) :
    alGet (regFileStep addr acc fi) fname =
      if fi.filename ≠ "" ∧ fname = fi.filename then
        some ((alGet acc fname).getD [] ++
          [(⟨addr, fi.size, fi.checksum⟩ : RepoEntry)])
      else alGet acc fname := by
  by_cases h0 : fi.filename = ""
  · simp [regFileStep, h0]
  · by_cases hf : fname = fi.filename
    · subst hf
      simp [regFileStep, h0, addRepoEntry, alGet_alSet_self]
    · simp [regFileStep, h0, addRepoEntry, hf,
        alGet_alSet_ne acc fi.filename fname _ hf]

theorem nodupKeys_regFileStep (addr : Addr) (fi : FileInfoT)
    (acc : List (String × List RepoEntry)) (hnd : NodupKeys acc) :
    NodupKeys (regFileStep addr acc fi) := by
  by_cases h0 : fi.filename = ""
  · simpa [regFileStep, h0] using hnd
  · simpa [regFileStep, h0, addRepoEntry] using
      nodupKeys_alSet acc fi.filename _ hnd

theorem regAddFiles_lookup (addr : Addr) (files : List FileInfoT) :
    ∀ repo : List (String × List RepoEntry), ∀ fname,
      alGet (regAddFiles repo addr files) fname =
        combineEntries (alGet repo fname) (newSeedEntries addr files fname) := by
  induction files with
  | nil => intro repo fname; simp [regAddFiles, newSeedEntries, combineEntries]
  | cons fi fs ih =>
    intro repo fname
    have hstep : regAddFiles repo addr (fi :: fs) =
        regAddFiles (regFileStep addr repo fi) addr fs := rfl
    rw [hstep, ih _ fname, regFileStep_lookup addr fi repo fname,
      newSeedEntries_cons]
    by_cases h0 : fi.filename = ""
    · rw [if_neg (fun hc => hc.1 h0), if_neg (fun hc => hc.2 h0)]
    · by_cases hf : fname = fi.filename
      · rw [if_pos ⟨h0, hf⟩, if_pos ⟨hf.symm, h0⟩]
        exact combineEntries_cons _ _ _
      · rw [if_neg (fun hc => hf hc.2), if_neg (fun hc => hf hc.1.symm)]

theorem nodupKeys_regAddFiles (addr : Addr) (files : List FileInfoT) :
    ∀ repo : List (String × List RepoEntry), NodupKeys repo →
      NodupKeys (regAddFiles repo addr files) := by
  induction files with
  | nil => intro repo hnd; exact hnd
  | cons fi fs ih =>
    intro repo hnd
    exact ih _ (nodupKeys_regFileStep addr fi repo hnd)

theorem mem_newSeedEntries (addr : Addr) (files : List FileInfoT)
    (fname : String) (e : RepoEntry) (h : e ∈ newSeedEntries addr files fname) :
    e.peer_address = addr ∧ ∃ fi ∈ files, fi.filename = fname := by
  simp only [newSeedEntries, List.mem_map, List.mem_filter] at h
  obtain ⟨fi, ⟨hmem, hcond⟩, he⟩ := h
  subst he
  refine ⟨rfl, fi, hmem, ?_⟩
  have := of_decide_eq_true hcond
  exact this.1

theorem newSeedEntries_mem_of (addr : Addr) (files : List FileInfoT)
    (fi : FileInfoT) (hmem : fi ∈ files) (hname : fi.filename ≠ "") :
    (⟨addr, fi.size, fi.checksum⟩ : RepoEntry) ∈
      newSeedEntries addr files fi.filename := by
  simp only [newSeedEntries, List.mem_map, List.mem_filter]
  exact ⟨fi, ⟨hmem, by simp [hname]⟩, rfl⟩

/-! ## Tracker-invariant preservation. -/

theorem erasePeer_active (s : TrackerState) (addr : Addr) (r : PeerRecord) :
    (erasePeer s addr r).active_peers = alErase s.active_peers addr := rfl

theorem erasePeer_repo (s : TrackerState) (addr : Addr) (r : PeerRecord) :
    (erasePeer s addr r).file_repository =
      if r.ptype = "seeder" then
        removeFilesOfPeer s.file_repository addr r.files
      else s.file_repository := rfl

/-- Removing a present peer (by DISCONNECT or by the inactivity sweeper)
preserves the invariant, removes the record, and leaves no repository entry
that references the removed address. -/
theorem erasePeer_inv (s : TrackerState) (addr : Addr) (r : PeerRecord)
    (hinv : TrackerInv s) (hget : alGet s.active_peers addr = some r) :
    TrackerInv (erasePeer s addr r) ∧
    alGet (erasePeer s addr r).active_peers addr = none ∧
    (∀ fname l, alGet (erasePeer s addr r).file_repository fname = some l →
      ∀ e ∈ l, e.peer_address ≠ addr) := by
  obtain ⟨hs, hc, hnp, hnr⟩ := hinv
  have hpa : alGet (alErase s.active_peers addr) addr = none :=
    alGet_alErase_self s.active_peers addr hnp
  have hpo : ∀ q, q ≠ addr →
      alGet (alErase s.active_peers addr) q = alGet s.active_peers q :=
    fun q hq => alGet_alErase_ne s.active_peers addr q hq
  -- Every value of the new repository: a non-empty sublist of the old value
  -- whose entries avoid `addr`.
  have hsub : ∀ fname l,
      alGet (erasePeer s addr r).file_repository fname = some l →
      ∃ l0, alGet s.file_repository fname = some l0 ∧ l ≠ [] ∧
        ∀ e ∈ l, e ∈ l0 ∧ e.peer_address ≠ addr := by
    intro fname l hl
    rw [erasePeer_repo] at hl
    by_cases hty : r.ptype = "seeder"
    · rw [if_pos hty,
        removeFilesOfPeer_lookup addr r.files s.file_repository hnr fname] at hl
      by_cases hmem : fname ∈ r.files.map FileInfoT.filename
      · rw [if_pos hmem] at hl
        cases hget0 : alGet s.file_repository fname with
        | none => rw [hget0] at hl; exact absurd hl (by simp [dropAddrEntries])
        | some l0 =>
          rw [hget0, dropAddrEntries_some] at hl
          by_cases hflt : l0.filter (fun e => e.peer_address ≠ addr) = []
          · rw [if_pos hflt] at hl
            exact absurd hl (by simp)
          · rw [if_neg hflt] at hl
            injection hl with hl
            subst hl
            refine ⟨l0, rfl, hflt, ?_⟩
            intro e he
            have := List.mem_filter.mp he
            exact ⟨this.1, of_decide_eq_true this.2⟩
      · rw [if_neg hmem] at hl
        refine ⟨l, hl, (hs fname l hl).1, ?_⟩
        intro e he
        refine ⟨he, ?_⟩
        intro heq
        obtain ⟨rec, hrec, _, fi, hfi, hfn⟩ := (hs fname l hl).2 e he
        rw [heq, hget] at hrec
        injection hrec with hrec
        subst hrec
        exact hmem (hfn ▸ List.mem_map_of_mem FileInfoT.filename hfi)
    · rw [if_neg hty] at hl
      refine ⟨l, hl, (hs fname l hl).1, ?_⟩
      intro e he
      refine ⟨he, ?_⟩
      intro heq
      obtain ⟨rec, hrec, hrty, _⟩ := (hs fname l hl).2 e he
      rw [heq, hget] at hrec
      injection hrec with hrec
      subst hrec
      exact hty hrty
  refine ⟨⟨?_, ?_, ?_, ?_⟩, hpa, ?_⟩
  · -- RepoSound
    intro fname l hl
    obtain ⟨l0, hl0, hne, hin⟩ := hsub fname l hl
    refine ⟨hne, ?_⟩
    intro e he
    obtain ⟨he0, hea⟩ := hin e he
    obtain ⟨rec, hrec, hrty, hadv⟩ := (hs fname l0 hl0).2 e he0
    refine ⟨rec, ?_, hrty, hadv⟩
    rw [erasePeer_active, hpo e.peer_address hea]
    exact hrec
  · -- RepoComplete
    intro a rec hreca hrty fi hfi
    rw [erasePeer_active] at hreca
    have ha : a ≠ addr := by
      intro heq
      rw [heq, hpa] at hreca
      exact Option.noConfusion hreca
    rw [hpo a ha] at hreca
    obtain ⟨l0, hl0, e, hel, hea⟩ := hc a rec hreca hrty fi hfi
    rw [erasePeer_repo]
    by_cases hty : r.ptype = "seeder"
    · rw [if_pos hty,
        removeFilesOfPeer_lookup addr r.files s.file_repository hnr fi.filename]
      by_cases hmem : fi.filename ∈ r.files.map FileInfoT.filename
      · rw [if_pos hmem, hl0, dropAddrEntries_some]
        have hef : e ∈ l0.filter (fun e => e.peer_address ≠ addr) := by
          refine List.mem_filter.mpr ⟨hel, ?_⟩
          exact decide_eq_true (hea ▸ ha)
        rw [if_neg (List.ne_nil_of_mem hef)]
        exact ⟨_, rfl, e, hef, hea⟩
      · rw [if_neg hmem]
        exact ⟨l0, hl0, e, hel, hea⟩
    · rw [if_neg hty]
      exact ⟨l0, hl0, e, hel, hea⟩
  · -- keys of the peer table stay distinct
    rw [erasePeer_active]
    exact nodupKeys_alErase s.active_peers addr hnp
  · -- keys of the repository stay distinct
    rw [erasePeer_repo]
    by_cases hty : r.ptype = "seeder"
    · rw [if_pos hty]
      exact nodupKeys_removeFilesOfPeer addr r.files s.file_repository hnr
    · rw [if_neg hty]
      exact hnr
  · -- no surviving entry references the removed address
    intro fname l hl e he
    obtain ⟨l0, _, _, hin⟩ := hsub fname l hl
    exact (hin e he).2

theorem register_peer_reject (s : TrackerState) (addr : Addr) (t : String)
    (files : List FileInfoT) (u : String) (now : Nat)
    (h : ¬ s.active_peers.length < s.peer_limit) :
    register_peer s addr t files u now =
      (s, "403 Forbidden: Client limit reached, registration denied.") := by
  simp only [register_peer]
  rw [if_neg h]

theorem register_peer_accept (s : TrackerState) (addr : Addr) (t : String)
    (files : List FileInfoT) (u : String) (now : Nat)
    (h : s.active_peers.length < s.peer_limit) :
    (register_peer s addr t files u now).1 =
      { s with
        active_peers := alSet s.active_peers addr
          ⟨u, now, t, if t = "seeder" then files else []⟩,
        file_repository :=
          if t = "seeder" ∧ files ≠ [] then
            regAddFiles s.file_repository addr files
          else s.file_repository } := by
  simp only [register_peer]
  rw [if_pos h]
  by_cases hb : t = "seeder" ∧ files ≠ []
  · rw [if_pos hb, if_pos hb]
  · rw [if_neg hb, if_neg hb]

theorem keep_peer_alive_some (s : TrackerState) (addr : Addr) (u : String)
    (now : Nat) (r : PeerRecord) (h : alGet s.active_peers addr = some r) :
    (keep_peer_alive s addr u now).1 =
      { s with active_peers :=
          alSet s.active_peers addr ({ r with last_activity := now }) } := by
  unfold keep_peer_alive
  rw [h]

theorem keep_peer_alive_none (s : TrackerState) (addr : Addr) (u : String)
    (now : Nat) (h : alGet s.active_peers addr = none) :
    keep_peer_alive s addr u now =
      (s, "403 Forbidden: Peer not found in active list: " ++ pyStrAddr addr) := by
  unfold keep_peer_alive
  rw [h]

theorem remove_peer_some (s : TrackerState) (addr : Addr) (u : String)
    (r : PeerRecord) (h : alGet s.active_peers addr = some r) :
    remove_peer s addr u =
      (erasePeer s addr r,
        "200 OK: Client '" ++ u ++ "' with address " ++ pyStrAddr addr ++
          " successfully disconnected from the tracker") := by
  unfold remove_peer
  rw [h]

theorem remove_peer_none (s : TrackerState) (addr : Addr) (u : String)
    (h : alGet s.active_peers addr = none) :
    remove_peer s addr u =
      (s, "403 Forbidden: Peer " ++ pyStrAddr addr ++ " not found.") := by
  unfold remove_peer
  rw [h]

/-- Fresh registration (no current record for the address, all filenames
truthy) preserves the tracker invariant. -/
theorem register_peer_inv (s : TrackerState) (addr : Addr) (t : String)
    (files : List FileInfoT) (u : String) (now : Nat)
    (hinv : TrackerInv s) (hfresh : alGet s.active_peers addr = none)
    (hfiles : ∀ fi ∈ files, fi.filename ≠ "") :
    TrackerInv (register_peer s addr t files u now).1 := by
  obtain ⟨hs, hc, hnp, hnr⟩ := hinv
  by_cases hlim : s.active_peers.length < s.peer_limit
  · rw [register_peer_accept s addr t files u now hlim]
    set rec : PeerRecord := ⟨u, now, t, if t = "seeder" then files else []⟩ with hrec
    have hpnew : alGet (alSet s.active_peers addr rec) addr = some rec :=
      alGet_alSet_self s.active_peers addr rec
    have hpold : ∀ q, q ≠ addr →
        alGet (alSet s.active_peers addr rec) q = alGet s.active_peers q :=
      fun q hq => alGet_alSet_ne s.active_peers addr q rec hq
    have hold_ne : ∀ fname l, alGet s.file_repository fname = some l →
        ∀ e ∈ l, e.peer_address ≠ addr := by
      intro fname l hl e he heq
      obtain ⟨rec2, hrec2, _, _⟩ := (hs fname l hl).2 e he
      rw [heq, hfresh] at hrec2
      exact Option.noConfusion hrec2
    by_cases hb : t = "seeder" ∧ files ≠ []
    · refine ⟨?_, ?_, ?_, ?_⟩
      · -- RepoSound
        intro fname l hl
        simp only [if_pos hb] at hl
        rw [regAddFiles_lookup addr files s.file_repository fname] at hl
        unfold combineEntries at hl
        by_cases hnew : newSeedEntries addr files fname = []
        · rw [if_pos hnew] at hl
          refine ⟨(hs fname l hl).1, ?_⟩
          intro e he
          obtain ⟨rec2, hrec2, hty2, hadv2⟩ := (hs fname l hl).2 e he
          refine ⟨rec2, ?_, hty2, hadv2⟩
          rw [hpold e.peer_address (hold_ne fname l hl e he)]
          exact hrec2
        · rw [if_neg hnew] at hl
          injection hl with hl
          subst hl
          constructor
          · intro hcon
            exact hnew (List.append_eq_nil.mp hcon).2
          · intro e he
            rcases List.mem_append.mp he with he1 | he2
            · cases hgo : alGet s.file_repository fname with
              | none => rw [hgo] at he1; simp at he1
              | some l0 =>
                rw [hgo] at he1
                simp only [Option.getD_some] at he1
                obtain ⟨rec2, hrec2, hty2, hadv2⟩ := (hs fname l0 hgo).2 e he1
                refine ⟨rec2, ?_, hty2, hadv2⟩
                rw [hpold e.peer_address (hold_ne fname l0 hgo e he1)]
                exact hrec2
            · obtain ⟨hea, fi, hfi, hfn⟩ :=
                mem_newSeedEntries addr files fname e he2
              refine ⟨rec, ?_, ?_, ?_⟩
              · rw [hea]
                exact hpnew
              · exact hb.1
              · refine ⟨fi, ?_, hfn⟩
                have hfl : rec.files = files := by
                  show (if t = "seeder" then files else []) = files
                  rw [if_pos hb.1]
                rw [hfl]
                exact hfi
      · -- RepoComplete
        intro a rec2 hra hty2 fi hfi
        simp only [if_pos hb]
        rw [regAddFiles_lookup addr files s.file_repository fi.filename]
        by_cases ha : a = addr
        · subst ha
          rw [hpnew] at hra
          injection hra with hra
          subst hra
          have hfl : rec.files = files := by
            show (if t = "seeder" then files else []) = files
            rw [if_pos hb.1]
          have hfi2 : fi ∈ files := hfl ▸ hfi
          have hmem := newSeedEntries_mem_of a files fi hfi2
            (hfiles fi hfi2)
          unfold combineEntries
          rw [if_neg (List.ne_nil_of_mem hmem)]
          exact ⟨_, rfl, _, List.mem_append_right _ hmem, rfl⟩
        · rw [hpold a ha] at hra
          obtain ⟨l0, hl0, e, hel, hea⟩ := hc a rec2 hra hty2 fi hfi
          unfold combineEntries
          by_cases hnew : newSeedEntries addr files fi.filename = []
          · rw [if_pos hnew]
            exact ⟨l0, hl0, e, hel, hea⟩
          · rw [if_neg hnew]
            refine ⟨_, rfl, e, ?_, hea⟩
            rw [hl0]
            exact List.mem_append_left _ hel
      · exact nodupKeys_alSet s.active_peers addr rec hnp
      · simp only [if_pos hb]
        exact nodupKeys_regAddFiles addr files s.file_repository hnr
    · have hemp : rec.files = [] := by
        show (if t = "seeder" then files else []) = []
        by_cases ht : t = "seeder"
        · have hfe : files = [] := by
            by_contra hne
            exact hb ⟨ht, hne⟩
          rw [if_pos ht, hfe]
        · rw [if_neg ht]
      refine ⟨?_, ?_, ?_, ?_⟩
      · intro fname l hl
        simp only [if_neg hb] at hl
        refine ⟨(hs fname l hl).1, ?_⟩
        intro e he
        obtain ⟨rec2, hrec2, hty2, hadv2⟩ := (hs fname l hl).2 e he
        refine ⟨rec2, ?_, hty2, hadv2⟩
        rw [hpold e.peer_address (hold_ne fname l hl e he)]
        exact hrec2
      · intro a rec2 hra hty2 fi hfi
        simp only [if_neg hb]
        by_cases ha : a = addr
        · subst ha
          rw [hpnew] at hra
          injection hra with hra
          subst hra
          rw [hemp] at hfi
          simp at hfi
        · rw [hpold a ha] at hra
          exact hc a rec2 hra hty2 fi hfi
      · exact nodupKeys_alSet s.active_peers addr rec hnp
      · simp only [if_neg hb]
        exact hnr
  · rw [show (register_peer s addr t files u now).1 = s by
      rw [register_peer_reject s addr t files u now hlim]]
    exact ⟨hs, hc, hnp, hnr⟩

/-- KEEP_ALIVE preserves the tracker invariant (only `last_activity`
changes). -/
theorem keep_peer_alive_inv (s : TrackerState) (addr : Addr) (u : String)
    (now : Nat) (hinv : TrackerInv s) :
    TrackerInv (keep_peer_alive s addr u now).1 := by
  obtain ⟨hs, hc, hnp, hnr⟩ := hinv
  cases hget : alGet s.active_peers addr with
  | none =>
    rw [show (keep_peer_alive s addr u now).1 = s by
      rw [keep_peer_alive_none s addr u now hget]]
    exact ⟨hs, hc, hnp, hnr⟩
  | some r =>
    rw [keep_peer_alive_some s addr u now r hget]
    set r2 : PeerRecord := { r with last_activity := now } with hr2
    have hpnew : alGet (alSet s.active_peers addr r2) addr = some r2 :=
      alGet_alSet_self s.active_peers addr r2
    have hpold : ∀ q, q ≠ addr →
        alGet (alSet s.active_peers addr r2) q = alGet s.active_peers q :=
      fun q hq => alGet_alSet_ne s.active_peers addr q r2 hq
    refine ⟨?_, ?_, ?_, hnr⟩
    · intro fname l hl
      refine ⟨(hs fname l hl).1, ?_⟩
      intro e he
      obtain ⟨rec2, hrec2, hty2, hadv2⟩ := (hs fname l hl).2 e he
      by_cases ha : e.peer_address = addr
      · rw [ha, hget] at hrec2
        injection hrec2 with hrec2
        subst hrec2
        refine ⟨r2, ?_, hty2, hadv2⟩
        rw [ha]
        exact hpnew
      · refine ⟨rec2, ?_, hty2, hadv2⟩
        rw [hpold e.peer_address ha]
        exact hrec2
    · intro a rec2 hra hty2 fi hfi
      by_cases ha : a = addr
      · subst ha
        rw [hpnew] at hra
        injection hra with hra
        subst hra
        exact hc a r hget hty2 fi hfi
      · rw [hpold a ha] at hra
        exact hc a rec2 hra hty2 fi hfi
    · exact nodupKeys_alSet s.active_peers addr r2 hnp

/-- DISCONNECT preserves the tracker invariant. -/
theorem remove_peer_inv (s : TrackerState) (addr : Addr) (u : String)
    (hinv : TrackerInv s) : TrackerInv (remove_peer s addr u).1 := by
  cases hget : alGet s.active_peers addr with
  | none =>
    rw [show (remove_peer s addr u).1 = s by
      rw [remove_peer_none s addr u hget]]
    exact hinv
  | some r =>
    rw [show (remove_peer s addr u).1 = erasePeer s addr r by
      rw [remove_peer_some s addr u r hget]]
    exact (erasePeer_inv s addr r hinv hget).1

/-- One iteration of the sweep preserves the tracker invariant. -/
theorem sweepBody_none (now : Nat) (acc : TrackerState) (p : Addr × PeerRecord)
    (hget : alGet acc.active_peers p.1 = none) : sweepBody now acc p = acc := by
  unfold sweepBody
  rw [hget]

theorem sweepBody_some (now : Nat) (acc : TrackerState) (p : Addr × PeerRecord)
    (r : PeerRecord) (hget : alGet acc.active_peers p.1 = some r) :
    sweepBody now acc p =
      if acc.peer_timeout < now - r.last_activity then erasePeer acc p.1 r
      else acc := by
  unfold sweepBody
  rw [hget]

theorem sweepBody_inv (now : Nat) (acc : TrackerState) (p : Addr × PeerRecord)
    (hinv : TrackerInv acc) : TrackerInv (sweepBody now acc p) := by
  cases hget : alGet acc.active_peers p.1 with
  | none =>
    rw [sweepBody_none now acc p hget]
    exact hinv
  | some r =>
    rw [sweepBody_some now acc p r hget]
    by_cases hcond : acc.peer_timeout < now - r.last_activity
    · rw [if_pos hcond]
      exact (erasePeer_inv acc p.1 r hinv hget).1
    · rw [if_neg hcond]
      exact hinv

/-- The whole inactivity sweep preserves the tracker invariant. -/
theorem remove_inactive_peers_once_inv (s : TrackerState) (now : Nat)
    (hinv : TrackerInv s) : TrackerInv (remove_inactive_peers_once s now) := by
  unfold remove_inactive_peers_once
  generalize s.active_peers = ps
  induction ps generalizing s with
  | nil => exact hinv
  | cons p ps ih => exact ih _ (sweepBody_inv now s p hinv)

theorem initTracker_inv (timeout limit : Nat) :
    TrackerInv (initTracker timeout limit) := by
  refine ⟨?_, ?_, ?_, ?_⟩
  · intro fname l hl
    simp [initTracker, alGet] at hl
  · intro a r hra
    simp [initTracker, alGet] at hra
  · simp [initTracker, NodupKeys]
  · simp [initTracker, NodupKeys]

theorem trackerRun_cons (s : TrackerState) (r : TrackerReq)
    (rs : List TrackerReq) :
    trackerRun s (r :: rs) = trackerRun (trackerStep s r) rs := rfl

theorem goodRun_cons (s : TrackerState) (r : TrackerReq)
    (rs : List TrackerReq) :
    goodRun s (r :: rs) =
      ((match r with
        | .register addr _ files _ _ =>
          (alGet s.active_peers addr).isNone &&
            files.all (fun fi => fi.filename ≠ "")
        | _ => true) && goodRun (trackerStep s r) rs) := rfl

/-- Any good run (fresh registrations with truthy filenames) keeps the
tracker invariant. -/
theorem trackerRun_inv (rs : List TrackerReq) :
    ∀ s, TrackerInv s → goodRun s rs = true → TrackerInv (trackerRun s rs) := by
  induction rs with
  | nil => intro s h _; exact h
  | cons r rs ih =>
    intro s h hg
    rw [goodRun_cons, Bool.and_eq_true] at hg
    rw [trackerRun_cons]
    refine ih _ ?_ hg.2
    cases r with
    | register addr t files u now =>
      have hg1 := hg.1
      simp only [Bool.and_eq_true] at hg1
      have hfresh : alGet s.active_peers addr = none :=
        Option.isNone_iff_eq_none.mp hg1.1
      have hfiles : ∀ fi ∈ files, fi.filename ≠ "" := by
        intro fi hfi
        exact of_decide_eq_true (List.all_eq_true.mp hg1.2 fi hfi)
      exact register_peer_inv s addr t files u now h hfresh hfiles
    | keepAlive addr u now => exact keep_peer_alive_inv s addr u now h
    | disconnect addr u => exact remove_peer_inv s addr u h
    | sweep now => exact remove_inactive_peers_once_inv s now h

/-! ## Peer-count and limit lemmas (for the admission claim). -/

theorem erasePeer_peer_limit (s : TrackerState) (addr : Addr)
    (r : PeerRecord) : (erasePeer s addr r).peer_limit = s.peer_limit := rfl

theorem erasePeer_len_le (s : TrackerState) (addr : Addr) (r : PeerRecord) :
    (erasePeer s addr r).active_peers.length ≤ s.active_peers.length := by
  rw [erasePeer_active]
  exact length_alErase_le s.active_peers addr

theorem sweep_fold_len_le (now : Nat) (ps : List (Addr × PeerRecord)) :
    ∀ acc : TrackerState,
      (ps.foldl (sweepBody now) acc).active_peers.length ≤
        acc.active_peers.length := by
  induction ps with
  | nil => intro acc; exact Nat.le_refl _
  | cons p ps ih =>
    intro acc
    refine Nat.le_trans (ih (sweepBody now acc p)) ?_
    cases hget : alGet acc.active_peers p.1 with
    | none => rw [sweepBody_none now acc p hget]
    | some r =>
      rw [sweepBody_some now acc p r hget]
      by_cases hcond : acc.peer_timeout < now - r.last_activity
      · rw [if_pos hcond]
        exact erasePeer_len_le acc p.1 r
      · rw [if_neg hcond]

theorem sweep_fold_peer_limit (now : Nat) (ps : List (Addr × PeerRecord)) :
    ∀ acc : TrackerState,
      (ps.foldl (sweepBody now) acc).peer_limit = acc.peer_limit := by
  induction ps with
  | nil => intro acc; rfl
  | cons p ps ih =>
    intro acc
    rw [List.foldl_cons, ih (sweepBody now acc p)]
    cases hget : alGet acc.active_peers p.1 with
    | none => rw [sweepBody_none now acc p hget]
    | some r =>
      rw [sweepBody_some now acc p r hget]
      by_cases hcond : acc.peer_timeout < now - r.last_activity
      · rw [if_pos hcond]
        rfl
      · rw [if_neg hcond]

theorem trackerStep_peer_limit (s : TrackerState) (r : TrackerReq) :
    (trackerStep s r).peer_limit = s.peer_limit := by
  cases r with
  | register addr t files u now =>
    show (register_peer s addr t files u now).1.peer_limit = s.peer_limit
    by_cases hlim : s.active_peers.length < s.peer_limit
    · rw [register_peer_accept s addr t files u now hlim]
    · rw [register_peer_reject s addr t files u now hlim]
  | keepAlive addr u now =>
    show (keep_peer_alive s addr u now).1.peer_limit = s.peer_limit
    cases hget : alGet s.active_peers addr with
    | none => rw [keep_peer_alive_none s addr u now hget]
    | some r0 => rw [keep_peer_alive_some s addr u now r0 hget]
  | disconnect addr u =>
    show (remove_peer s addr u).1.peer_limit = s.peer_limit
    cases hget : alGet s.active_peers addr with
    | none => rw [remove_peer_none s addr u hget]
    | some r0 =>
      rw [remove_peer_some s addr u r0 hget]
      rfl
  | sweep now =>
    exact sweep_fold_peer_limit now s.active_peers s

theorem trackerStep_len (s : TrackerState) (r : TrackerReq)
    (h : s.active_peers.length ≤ s.peer_limit) :
    (trackerStep s r).active_peers.length ≤ s.peer_limit := by
  cases r with
  | register addr t files u now =>
    show (register_peer s addr t files u now).1.active_peers.length ≤
      s.peer_limit
    by_cases hlim : s.active_peers.length < s.peer_limit
    · rw [register_peer_accept s addr t files u now hlim]
      show (alSet s.active_peers addr _).length ≤ s.peer_limit
      rw [length_alSet]
      by_cases hsome : (alGet s.active_peers addr).isSome
      · rw [if_pos hsome]
        exact h
      · rw [if_neg hsome]
        exact hlim
    · rw [register_peer_reject s addr t files u now hlim]
      exact h
  | keepAlive addr u now =>
    show (keep_peer_alive s addr u now).1.active_peers.length ≤ s.peer_limit
    cases hget : alGet s.active_peers addr with
    | none =>
      rw [keep_peer_alive_none s addr u now hget]
      exact h
    | some r0 =>
      rw [keep_peer_alive_some s addr u now r0 hget]
      show (alSet s.active_peers addr _).length ≤ s.peer_limit
      rw [length_alSet, if_pos (by rw [hget]; rfl)]
      exact h
  | disconnect addr u =>
    show (remove_peer s addr u).1.active_peers.length ≤ s.peer_limit
    cases hget : alGet s.active_peers addr with
    | none =>
      rw [remove_peer_none s addr u hget]
      exact h
    | some r0 =>
      rw [remove_peer_some s addr u r0 hget]
      exact Nat.le_trans (erasePeer_len_le s addr r0) h
  | sweep now =>
    exact Nat.le_trans (sweep_fold_len_le now s.active_peers s) h

theorem trackerRun_len (rs : List TrackerReq) :
    ∀ s : TrackerState, s.active_peers.length ≤ s.peer_limit →
      (trackerRun s rs).active_peers.length ≤ (trackerRun s rs).peer_limit := by
  induction rs with
  | nil => intro s h; exact h
  | cons r rs ih =>
    intro s h
    rw [trackerRun_cons]
    refine ih _ ?_
    rw [trackerStep_peer_limit s r]
    exact trackerStep_len s r h

/-- Under the invariant, the repository has a filename key iff at least one
registered seeder advertises that filename. -/
theorem trackerInv_repo_iff (s : TrackerState) (hinv : TrackerInv s)
    (fname : String) :
    (alGet s.file_repository fname).isSome ↔
      ∃ p ∈ s.active_peers, p.2.ptype = "seeder" ∧
        ∃ fi ∈ p.2.files, fi.filename = fname := by
  obtain ⟨hs, hc, hnp, _⟩ := hinv
  constructor
  · intro h
    cases hl : alGet s.file_repository fname with
    | none =>
      rw [hl] at h
      simp at h
    | some l =>
      obtain ⟨hne, hall⟩ := hs fname l hl
      obtain ⟨e, he⟩ := List.exists_mem_of_ne_nil l hne
      obtain ⟨rec, hrec, hty, hadv⟩ := hall e he
      exact ⟨(e.peer_address, rec), alGet_mem _ _ _ hrec, hty, hadv⟩
  · rintro ⟨p, hp, hty, fi, hfi, hfn⟩
    have hget : alGet s.active_peers p.1 = some p.2 := mem_alGet _ _ _ hnp hp
    obtain ⟨l, hl, _⟩ := hc p.1 p.2 hget hty fi hfi
    rw [hfn] at hl
    rw [hl]
    rfl

theorem trackerRun_peer_limit (rs : List TrackerReq) :
    ∀ s : TrackerState, (trackerRun s rs).peer_limit = s.peer_limit := by
  induction rs with
  | nil => intro s; rfl
  | cons r rs ih =>
    intro s
    rw [trackerRun_cons, ih (trackerStep s r), trackerStep_peer_limit]

/-- C4, counterexample: after the same address registers twice as a seeder
(first with `F1`, then with `F2` only), the repository still holds the key
`F1` although no active seeder advertises `F1`; and after DISCONNECT the
peer is gone but a repository entry still references its address. -/
theorem c4_repo_iff_counterexample :
    ((alGet rebindDemo.file_repository "F1").isSome = true ∧
      ¬ ∃ p ∈ rebindDemo.active_peers, p.2.ptype = "seeder" ∧
        ∃ fi ∈ p.2.files, fi.filename = "F1") ∧
    (alGet ((remove_peer rebindDemo ("h", 1) "alice").1).active_peers
        ("h", 1) = none ∧
      ∃ l, alGet ((remove_peer rebindDemo ("h", 1) "alice").1).file_repository
          "F1" = some l ∧ ∃ e ∈ l, e.peer_address = ("h", 1)) := by
  decide

/-- C4 (amended): for runs of REGISTER / KEEP_ALIVE / DISCONNECT /
inactivity-sweep steps in which every REGISTER comes from an address with no
current record and advertises only non-empty filenames, the file repository
contains a filename key iff at least one currently active seeder advertises
that file, and after DISCONNECT from a peer that peer is absent from the
active set and no repository entry references its address. (Re-registration
from a bound address breaks the invariant, as the counterexample shows:
`register_peer` never removes the address's earlier repository entries.) -/
theorem c4_repo_iff_amended (timeout limit : Nat) (rs : List TrackerReq)
    (h : goodRun (initTracker timeout limit) rs = true) :
    (∀ fname,
      (alGet (trackerRun (initTracker timeout limit) rs).file_repository
          fname).isSome ↔
        ∃ p ∈ (trackerRun (initTracker timeout limit) rs).active_peers,
          p.2.ptype = "seeder" ∧ ∃ fi ∈ p.2.files, fi.filename = fname) ∧
    (∀ addr u,
      alGet ((remove_peer (trackerRun (initTracker timeout limit) rs) addr
          u).1).active_peers addr = none ∧
      ∀ fname l,
        alGet ((remove_peer (trackerRun (initTracker timeout limit) rs) addr
            u).1).file_repository fname = some l →
          ∀ e ∈ l, e.peer_address ≠ addr) := by
  have hinv := trackerRun_inv rs _ (initTracker_inv timeout limit) h
  constructor
  · intro fname
    exact trackerInv_repo_iff _ hinv fname
  · intro addr u
    cases hget : alGet (trackerRun (initTracker timeout limit)
        rs).active_peers addr with
    | none =>
      rw [remove_peer_none _ addr u hget]
      refine ⟨hget, ?_⟩
      intro fname l hl e he heq
      obtain ⟨rec, hrec, _, _⟩ := (hinv.1 fname l hl).2 e he
      rw [heq, hget] at hrec
      exact Option.noConfusion hrec
    | some r =>
      rw [remove_peer_some _ addr u r hget]
      obtain ⟨_, h2, h3⟩ := erasePeer_inv _ addr r hinv hget
      exact ⟨h2, h3⟩

theorem c4_repo_iff_witness :
    goodRun (initTracker 30 10) regDemoRun = true ∧
    ((alGet (trackerRun (initTracker 30 10) regDemoRun).file_repository
        "F1").isSome ↔
      ∃ p ∈ (trackerRun (initTracker 30 10) regDemoRun).active_peers,
        p.2.ptype = "seeder" ∧ ∃ fi ∈ p.2.files, fi.filename = "F1") ∧
    alGet ((remove_peer (trackerRun (initTracker 30 10) regDemoRun) ("h", 1)
        "alice").1).active_peers ("h", 1) = none := by
  have h := c4_repo_iff_amended 30 10 regDemoRun (by decide)
  exact ⟨by decide, h.1 "F1", (h.2 ("h", 1) "alice").1⟩

/-- C5: in every state reachable from the fresh tracker by REGISTER,
KEEP_ALIVE, DISCONNECT and inactivity-sweep steps, the number of active
peers is at most `peer_limit`; and when the active set size equals
`peer_limit`, any further `register_peer` call is answered with the literal
`403` admission error and returns the state unchanged. -/
theorem c5_admission (timeout limit : Nat) (rs : List TrackerReq) :
    (trackerRun (initTracker timeout limit) rs).active_peers.length ≤
      limit ∧
    (∀ addr t files u now,
      (trackerRun (initTracker timeout limit) rs).active_peers.length =
        limit →
      register_peer (trackerRun (initTracker timeout limit) rs) addr t files
          u now =
        (trackerRun (initTracker timeout limit) rs,
          "403 Forbidden: Client limit reached, registration denied.")) := by
  have hlim : (trackerRun (initTracker timeout limit) rs).peer_limit =
      limit := trackerRun_peer_limit rs (initTracker timeout limit)
  have hlen := trackerRun_len rs (initTracker timeout limit)
    (by simp [initTracker])
  rw [hlim] at hlen
  refine ⟨hlen, ?_⟩
  intro addr t files u now heq
  refine register_peer_reject _ addr t files u now ?_
  rw [hlim, heq]
  exact Nat.lt_irrefl limit

theorem c5_admission_witness :
    (trackerRun (initTracker 30 1)
      [.register ("h", 1) "leecher" [] "alice" 0]).active_peers.length ≤ 1 ∧
    register_peer (trackerRun (initTracker 30 1)
        [.register ("h", 1) "leecher" [] "alice" 0]) ("h", 2) "leecher" []
        "bob" 5 =
      (trackerRun (initTracker 30 1)
          [.register ("h", 1) "leecher" [] "alice" 0],
        "403 Forbidden: Client limit reached, registration denied.") := by
  have h := c5_admission 30 1 [.register ("h", 1) "leecher" [] "alice" 0]
  exact ⟨h.1, h.2 ("h", 2) "leecher" [] "bob" 5 (by decide)⟩

/-- C6, counterexample: with `peer_limit = 1`, a re-registration from the
already-bound address is refused `403` for capacity; and after an accepted
rebind (limit 10), the repository entry of the earlier registration (`F1`)
persists although every active record now lists only `F2`. -/
theorem c6_rebind_counterexample :
    (register_peer (trackerRun (initTracker 30 1) regDemoRun) ("h", 1)
        "seeder" [⟨"F2", 6, "c2"⟩] "alice" 1).2 =
      "403 Forbidden: Client limit reached, registration denied." ∧
    alGet rebindDemo.file_repository "F1" =
      some [⟨("h", 1), 5, "c1"⟩] ∧
    ∀ p ∈ rebindDemo.active_peers, p.2.files = [⟨"F2", 6, "c2"⟩] := by
  decide

/-- C6 (amended): a duplicate REGISTER from a bound address is accepted only
while the active set is below `peer_limit` (the admission check counts the
already-present address, so at capacity the rebind is refused `403` and the
state is unchanged); an accepted rebind overwrites the record for the
address without adding a second one (the peer count is unchanged), but
repository entries from the earlier registration persist: every entry of
the old repository survives into the new one. -/
theorem c6_rebind_amended (s : TrackerState) (addr : Addr) (t : String)
    (files : List FileInfoT) (u : String) (now : Nat) (r0 : PeerRecord)
    (hreg : alGet s.active_peers addr = some r0) :
    (s.active_peers.length < s.peer_limit →
      alGet (register_peer s addr t files u now).1.active_peers addr =
          some ⟨u, now, t, if t = "seeder" then files else []⟩ ∧
        (register_peer s addr t files u now).1.active_peers.length =
          s.active_peers.length ∧
        (∀ fname l e, alGet s.file_repository fname = some l → e ∈ l →
          ∃ l2, alGet (register_peer s addr t files u now).1.file_repository
              fname = some l2 ∧ e ∈ l2)) ∧
    (¬ s.active_peers.length < s.peer_limit →
      register_peer s addr t files u now =
        (s, "403 Forbidden: Client limit reached, registration denied.")) := by
  constructor
  · intro hlim
    rw [register_peer_accept s addr t files u now hlim]
    refine ⟨alGet_alSet_self _ _ _, ?_, ?_⟩
    · show (alSet s.active_peers addr _).length = s.active_peers.length
      rw [length_alSet, if_pos (by rw [hreg]; rfl)]
    · intro fname l e hl he
      show ∃ l2, alGet (if t = "seeder" ∧ files ≠ [] then
        regAddFiles s.file_repository addr files else s.file_repository)
          fname = some l2 ∧ e ∈ l2
      by_cases hb : t = "seeder" ∧ files ≠ []
      · rw [if_pos hb, regAddFiles_lookup addr files s.file_repository fname]
        unfold combineEntries
        by_cases hnew : newSeedEntries addr files fname = []
        · rw [if_pos hnew]
          exact ⟨l, hl, he⟩
        · rw [if_neg hnew]
          refine ⟨_, rfl, ?_⟩
          rw [hl]
          exact List.mem_append_left _ he
      · rw [if_neg hb]
        exact ⟨l, hl, he⟩
  · intro hlim
    exact register_peer_reject s addr t files u now hlim

theorem c6_rebind_witness :
    alGet (register_peer rebindDemo ("h", 1) "seeder" [⟨"F3", 7, "c3"⟩]
        "bob" 2).1.active_peers ("h", 1) =
      some ⟨"bob", 2, "seeder", [⟨"F3", 7, "c3"⟩]⟩ ∧
    (register_peer rebindDemo ("h", 1) "seeder" [⟨"F3", 7, "c3"⟩]
        "bob" 2).1.active_peers.length = rebindDemo.active_peers.length ∧
    ∃ l2, alGet (register_peer rebindDemo ("h", 1) "seeder" [⟨"F3", 7, "c3"⟩]
        "bob" 2).1.file_repository "F1" = some l2 ∧
      (⟨("h", 1), 5, "c1"⟩ : RepoEntry) ∈ l2 := by
  have h := c6_rebind_amended rebindDemo ("h", 1) "seeder" [⟨"F3", 7, "c3"⟩]
    "bob" 2 ⟨"alice", 1, "seeder", [⟨"F2", 6, "c2"⟩]⟩ (by decide)
  have h2 := h.1 (by decide)
  exact ⟨h2.1, h2.2.1,
    h2.2.2 "F1" [⟨("h", 1), 5, "c1"⟩] ⟨("h", 1), 5, "c1"⟩ (by decide)
      (by decide)⟩

/-! ## Metadata-generation lemmas (client.py `generate_file_metadata`). -/

theorem splitChunks_nil (cs : Nat) : splitChunks cs [] = [] := by
  unfold splitChunks
  simp

theorem splitChunks_cons_eq (cs : Nat) (content : List Nat) (h0 : cs ≠ 0)
    (h1 : content ≠ []) :
    splitChunks cs content =
      content.take cs :: splitChunks cs (content.drop cs) := by
  rw [splitChunks]
  simp [h0, h1]

theorem splitChunks_flatten_aux (cs : Nat) (h0 : 0 < cs) (n : Nat) :
    ∀ content : List Nat, content.length ≤ n →
      (splitChunks cs content).flatten = content := by
  induction n with
  | zero =>
    intro content hlen
    have hc : content = [] := List.eq_nil_of_length_eq_zero (Nat.le_zero.mp hlen)
    subst hc
    simp [splitChunks_nil]
  | succ n ih =>
    intro content hlen
    by_cases hc : content = []
    · subst hc
      simp [splitChunks_nil]
    · rw [splitChunks_cons_eq cs content (Nat.pos_iff_ne_zero.mp h0) hc,
        List.flatten_cons,
        ih (content.drop cs) (by
          rw [List.length_drop]
          have hpos : 0 < content.length := List.length_pos.mpr hc
          omega)]
      exact List.take_append_drop cs content

theorem splitChunks_flatten (cs : Nat) (content : List Nat) (h0 : 0 < cs) :
    (splitChunks cs content).flatten = content :=
  splitChunks_flatten_aux cs h0 content.length content (Nat.le_refl _)

theorem splitChunks_mem_aux (cs : Nat) (h0 : 0 < cs) (n : Nat) :
    ∀ content : List Nat, content.length ≤ n →
      ∀ c ∈ splitChunks cs content, 0 < c.length ∧ c.length ≤ cs := by
  induction n with
  | zero =>
    intro content hlen c hc
    have he : content = [] := List.eq_nil_of_length_eq_zero (Nat.le_zero.mp hlen)
    subst he
    rw [splitChunks_nil] at hc
    simp at hc
  | succ n ih =>
    intro content hlen c hc
    by_cases hce : content = []
    · subst hce
      rw [splitChunks_nil] at hc
      simp at hc
    · rw [splitChunks_cons_eq cs content (Nat.pos_iff_ne_zero.mp h0) hce] at hc
      rcases List.mem_cons.mp hc with rfl | hmem
      · have hpos : 0 < content.length := List.length_pos.mpr hce
        rw [List.length_take]
        omega
      · refine ih (content.drop cs) ?_ c hmem
        rw [List.length_drop]
        have hpos : 0 < content.length := List.length_pos.mpr hce
        omega

theorem splitChunks_ne_nil_iff (cs : Nat) (content : List Nat) (h0 : 0 < cs) :
    splitChunks cs content ≠ [] ↔ content ≠ [] := by
  constructor
  · intro h hc
    subst hc
    exact h (splitChunks_nil cs)
  · intro hc
    rw [splitChunks_cons_eq cs content (Nat.pos_iff_ne_zero.mp h0) hc]
    simp

theorem splitChunks_full_aux (cs : Nat) (h0 : 0 < cs) (n : Nat) :
    ∀ content : List Nat, content.length ≤ n →
      ∀ i (hi : i + 1 < (splitChunks cs content).length),
        ((splitChunks cs content).get ⟨i, Nat.lt_of_succ_lt hi⟩).length = cs := by
  induction n with
  | zero =>
    intro content hlen i hi
    have he : content = [] := List.eq_nil_of_length_eq_zero (Nat.le_zero.mp hlen)
    subst he
    rw [splitChunks_nil] at hi
    simp at hi
  | succ n ih =>
    intro content hlen i hi
    by_cases hce : content = []
    · subst hce
      rw [splitChunks_nil] at hi
      simp at hi
    · have heq := splitChunks_cons_eq cs content (Nat.pos_iff_ne_zero.mp h0) hce
      match i with
      | 0 =>
        have hrest : splitChunks cs (content.drop cs) ≠ [] := by
          intro hnil
          rw [heq, List.length_cons, hnil] at hi
          simp at hi
        have hdrop : content.drop cs ≠ [] :=
          ((splitChunks_ne_nil_iff cs (content.drop cs) h0).mp hrest)
        have hlt : cs < content.length := by
          have := List.length_pos.mpr hdrop
          rw [List.length_drop] at this
          omega
        have : (splitChunks cs content).get ⟨0, Nat.lt_of_succ_lt hi⟩ =
            content.take cs := by
          simp [heq]
        rw [this, List.length_take]
        omega
      | i + 1 =>
        have hpos : 0 < content.length := List.length_pos.mpr hce
        have hi2 : i + 1 < (splitChunks cs (content.drop cs)).length := by
          rw [heq, List.length_cons] at hi
          omega
        have hstep : (splitChunks cs content).get
            ⟨i + 1, Nat.lt_of_succ_lt hi⟩ =
            (splitChunks cs (content.drop cs)).get
              ⟨i, Nat.lt_of_succ_lt hi2⟩ := by
          simp [heq]
        rw [hstep]
        exact ih (content.drop cs) (by rw [List.length_drop]; omega) i hi2

/-- C9: metadata generated with a positive nominal chunk size satisfies the
invariants: the recorded size is the sum of the chunk sizes, ids are dense
and zero-based, every chunk but the last has exactly the nominal size and
every chunk is non-empty and at most nominal, and the empty file yields zero
chunks with the whole-file digest of the empty byte string. -/
theorem c9_metadata_invariants (hash : List Nat → String) (content : List Nat)
    (chunk_size : Nat) (h0 : 0 < chunk_size) :
    (generate_file_metadata hash content chunk_size).size =
      (((generate_file_metadata hash content chunk_size).chunks.map
        ChunkInfo.size).sum) ∧
    ((generate_file_metadata hash content chunk_size).chunks.map
        ChunkInfo.id =
      List.range
        (generate_file_metadata hash content chunk_size).chunks.length) ∧
    (∀ i, i + 1 <
        (generate_file_metadata hash content chunk_size).chunks.length →
      ((generate_file_metadata hash content chunk_size).chunks.map
        ChunkInfo.size).get? i = some chunk_size) ∧
    (∀ c ∈ (generate_file_metadata hash content chunk_size).chunks,
      0 < c.size ∧ c.size ≤ chunk_size) ∧
    (content = [] →
      (generate_file_metadata hash content chunk_size).chunks = [] ∧
      (generate_file_metadata hash content chunk_size).checksum = hash []) := by
  have hsizes : (generate_file_metadata hash content chunk_size).chunks.map
      ChunkInfo.size = (splitChunks chunk_size content).map List.length := by
    show ((splitChunks chunk_size content).enum.map
      (fun p => (⟨p.1, p.2.length, hash p.2⟩ : ChunkInfo))).map ChunkInfo.size =
      (splitChunks chunk_size content).map List.length
    rw [List.map_map]
    have hco : (ChunkInfo.size ∘ fun p : Nat × List Nat =>
        (⟨p.1, p.2.length, hash p.2⟩ : ChunkInfo)) =
        (List.length ∘ Prod.snd) := rfl
    rw [hco, ← List.map_map, List.enum_map_snd]
  have hids : (generate_file_metadata hash content chunk_size).chunks.map
      ChunkInfo.id = List.range (splitChunks chunk_size content).length := by
    show ((splitChunks chunk_size content).enum.map
      (fun p => (⟨p.1, p.2.length, hash p.2⟩ : ChunkInfo))).map ChunkInfo.id =
      List.range (splitChunks chunk_size content).length
    rw [List.map_map]
    have hco : (ChunkInfo.id ∘ fun p : Nat × List Nat =>
        (⟨p.1, p.2.length, hash p.2⟩ : ChunkInfo)) = Prod.fst := rfl
    rw [hco, List.enum_map_fst]
  have hlen : (generate_file_metadata hash content chunk_size).chunks.length =
      (splitChunks chunk_size content).length := by
    show ((splitChunks chunk_size content).enum.map _).length = _
    rw [List.length_map, List.enum_length]
  refine ⟨?_, ?_, ?_, ?_, ?_⟩
  · show content.length = _
    rw [hsizes, ← List.length_flatten,
      splitChunks_flatten chunk_size content h0]
  · rw [hids, hlen]
  · intro i hi
    have hi2 : i + 1 < (splitChunks chunk_size content).length := by
      rw [← hlen]
      exact hi
    rw [hsizes, List.get?_map,
      List.get?_eq_get (Nat.lt_of_succ_lt hi2)]
    simp only [Option.map_some']
    rw [splitChunks_full_aux chunk_size h0 content.length content
      (Nat.le_refl _) i hi2]
  · intro c hc
    have : c ∈ (splitChunks chunk_size content).enum.map
        (fun p => (⟨p.1, p.2.length, hash p.2⟩ : ChunkInfo)) := hc
    obtain ⟨p, hp, hpc⟩ := List.mem_map.mp this
    have hmem : p.2 ∈ splitChunks chunk_size content :=
      List.snd_mem_of_mem_enum hp
    have := splitChunks_mem_aux chunk_size h0 content.length content
      (Nat.le_refl _) p.2 hmem
    rw [← hpc]
    exact this
  · intro hce
    subst hce
    constructor
    · show (splitChunks chunk_size []).enum.map _ = []
      rw [splitChunks_nil]
      rfl
    · show hash (splitChunks chunk_size []).flatten = hash []
      rw [splitChunks_nil]
      rfl

theorem c9_metadata_invariants_witness :
    0 < 2 ∧
    (generate_file_metadata (fun l => "h" ++ toString l.length) [1, 2, 3]
        2).size =
      (((generate_file_metadata (fun l => "h" ++ toString l.length) [1, 2, 3]
        2).chunks.map ChunkInfo.size).sum) ∧
    (generate_file_metadata (fun l => "h" ++ toString l.length) [] 2).chunks =
      [] ∧
    (generate_file_metadata (fun l => "h" ++ toString l.length) [] 2).checksum =
      (fun l : List Nat => "h" ++ toString l.length) [] := by
  refine ⟨Nat.zero_lt_two, ?_, ?_, ?_⟩
  · exact (c9_metadata_invariants (fun l => "h" ++ toString l.length) [1, 2, 3]
      2 Nat.zero_lt_two).1
  · exact ((c9_metadata_invariants (fun l => "h" ++ toString l.length) [] 2
      Nat.zero_lt_two).2.2.2.2 rfl).1
  · exact ((c9_metadata_invariants (fun l => "h" ++ toString l.length) [] 2
      Nat.zero_lt_two).2.2.2.2 rfl).2

/-- C10: `compute_checksum` invokes `.hexidigest()`, which is not among the
attributes of a sha256 hash object, so every call raises `AttributeError`
and never returns a digest. -/
theorem c10_compute_checksum_raises (sha256hex : String → String)
    (message : String) :
    compute_checksum sha256hex message = .exn "AttributeError" := by
  unfold compute_checksum
  rw [if_neg (by decide : ¬ ("hexidigest" ∈ sha256ObjectAttrs))]

/-! ## Chunk-serving lemmas (client.py `get_chunk`). -/

theorem pyIndex_nonneg {α : Type} (l : List α) (i : Int) (h0 : 0 ≤ i)
    (h1 : i < (l.length : Int)) :
    ∃ hin : i.toNat < l.length, pyIndex l i = some (l.get ⟨i.toNat, hin⟩) := by
  have hin : i.toNat < l.length := by omega
  refine ⟨hin, ?_⟩
  unfold pyIndex
  rw [if_pos h0]
  exact List.get?_eq_get hin

theorem pyIndex_neg {α : Type} (l : List α) (i : Int)
    (hlo : -(l.length : Int) ≤ i) (hhi : i < 0) :
    ∃ hin : l.length - (-i).toNat < l.length,
      pyIndex l i = some (l.get ⟨l.length - (-i).toNat, hin⟩) := by
  have hin : l.length - (-i).toNat < l.length := by omega
  refine ⟨hin, ?_⟩
  unfold pyIndex
  rw [if_neg (by omega), if_pos hlo]
  exact List.get?_eq_get hin

theorem pyIndex_oob {α : Type} (l : List α) (i : Int)
    (h : i < -(l.length : Int)) : pyIndex l i = none := by
  unfold pyIndex
  rw [if_neg (by omega), if_neg (by omega)]

theorem get_chunk_eq (hash : List Nat → String)
    (fileChunks : List (String × FileMeta))
    (fileData : List (String × List Nat)) (filename : String)
    (chunk_id : Int) (meta : FileMeta)
    (hmeta : alGet fileChunks filename = some meta) :
    get_chunk hash fileChunks fileData filename chunk_id =
      if (meta.chunks.length : Int) ≤ chunk_id then .noChunk
      else
        match pyIndex meta.chunks chunk_id with
        | none => .indexError
        | some cm =>
          match alGet fileData filename with
          | none => .noChunk
          | some content =>
            .chunk ((content.drop (((meta.chunks.take chunk_id.toNat).map
                (fun c => c.size)).sum)).take cm.size)
              (decide (hash ((content.drop
                (((meta.chunks.take chunk_id.toNat).map
                  (fun c => c.size)).sum)).take cm.size) ≠ cm.checksum)) := by
  unfold get_chunk
  rw [hmeta]

theorem get_chunk_unknown (hash : List Nat → String)
    (fileChunks : List (String × FileMeta))
    (fileData : List (String × List Nat)) (filename : String)
    (chunk_id : Int) (hmeta : alGet fileChunks filename = none) :
    get_chunk hash fileChunks fileData filename chunk_id = .noChunk := by
  unfold get_chunk
  rw [hmeta]

/-- C8, counterexample: for a file with two chunks (sizes 2 and 1), the
out-of-range chunk id `-1` is not answered with a not-found result: Python
negative indexing selects the last chunk while the prefix-sum loop over
`range(-1)` is empty, so `get_chunk` returns the first byte of the file. -/
theorem c8_get_chunk_counterexample :
    get_chunk (fun l => "h" ++ toString l.length)
        [("f", ⟨3, "h3", [⟨0, 2, "h2"⟩, ⟨1, 1, "h1"⟩]⟩)]
        [("f", [10, 11, 12])] "f" (-1) =
      .chunk [10] false ∧
    (GetChunkResult.chunk [10] false ≠ .noChunk) := by
  constructor
  · decide
  · decide

/-- C8 (amended): `get_chunk` returns not-found for an unknown filename and
for a chunk id at or above the number of chunks; for a valid id it reads
from the prefix-sum offset of the preceding chunk sizes, returns exactly
`chunks[id].size` bytes (when the file holds them), and returns the bytes
with the warning flag set exactly when the recomputed digest differs from
the stored one. Negative ids are not rejected: for `-n ≤ id < 0` Python
indexing selects chunk `n + id` while the offset loop contributes zero, so
the first `chunks[n + id].size` bytes of the file are returned; for
`id < -n` an IndexError escapes. -/
theorem c8_get_chunk_amended (hash : List Nat → String)
    (fileChunks : List (String × FileMeta))
    (fileData : List (String × List Nat)) (filename : String)
    (meta : FileMeta) (content : List Nat)
    (hmeta : alGet fileChunks filename = some meta)
    (hdata : alGet fileData filename = some content) :
    (∀ fn2 id, alGet fileChunks fn2 = none →
      get_chunk hash fileChunks fileData fn2 id = .noChunk) ∧
    (∀ id : Int, (meta.chunks.length : Int) ≤ id →
      get_chunk hash fileChunks fileData filename id = .noChunk) ∧
    (∀ i (hi : i < meta.chunks.length),
      get_chunk hash fileChunks fileData filename (i : Int) =
        .chunk ((content.drop (((meta.chunks.take i).map
            (fun c => c.size)).sum)).take ((meta.chunks.get ⟨i, hi⟩).size))
          (decide (hash ((content.drop (((meta.chunks.take i).map
            (fun c => c.size)).sum)).take ((meta.chunks.get ⟨i, hi⟩).size)) ≠
              (meta.chunks.get ⟨i, hi⟩).checksum)) ∧
      ((((meta.chunks.take i).map (fun c => c.size)).sum +
          (meta.chunks.get ⟨i, hi⟩).size ≤ content.length) →
        ((content.drop (((meta.chunks.take i).map
            (fun c => c.size)).sum)).take
          ((meta.chunks.get ⟨i, hi⟩).size)).length =
          (meta.chunks.get ⟨i, hi⟩).size)) ∧
    (∀ id : Int, -(meta.chunks.length : Int) ≤ id → id < 0 →
      ∀ hin : meta.chunks.length - (-id).toNat < meta.chunks.length,
      get_chunk hash fileChunks fileData filename id =
        .chunk (content.take ((meta.chunks.get
            ⟨meta.chunks.length - (-id).toNat, hin⟩).size))
          (decide (hash (content.take ((meta.chunks.get
            ⟨meta.chunks.length - (-id).toNat, hin⟩).size)) ≠
              (meta.chunks.get
                ⟨meta.chunks.length - (-id).toNat, hin⟩).checksum))) ∧
    (∀ id : Int, id < -(meta.chunks.length : Int) →
      get_chunk hash fileChunks fileData filename id = .indexError) := by
  refine ⟨?_, ?_, ?_, ?_, ?_⟩
  · intro fn2 id h
    exact get_chunk_unknown hash fileChunks fileData fn2 id h
  · intro id hle
    rw [get_chunk_eq hash fileChunks fileData filename id meta hmeta,
      if_pos hle]
  · intro i hi
    rw [get_chunk_eq hash fileChunks fileData filename (i : Int) meta hmeta,
      if_neg (by exact_mod_cast Nat.not_le.mpr hi)]
    obtain ⟨hin, hpy⟩ := pyIndex_nonneg meta.chunks (i : Int)
      (by exact_mod_cast Nat.zero_le i) (by exact_mod_cast hi)
    rw [hpy, hdata]
    have htn : (i : Int).toNat = i := Int.toNat_natCast i
    constructor
    · simp only [htn]
    · intro hsum
      rw [List.length_take, List.length_drop]
      omega
  · intro id hlo hhi hin
    rw [get_chunk_eq hash fileChunks fileData filename id meta hmeta,
      if_neg (by omega)]
    obtain ⟨hin2, hpy⟩ := pyIndex_neg meta.chunks id hlo hhi
    rw [hpy, hdata]
    have htn : id.toNat = 0 := by omega
    rw [htn]
    simp only [List.take_zero, List.map_nil, List.sum_nil, List.drop_zero]
  · intro id hid
    rw [get_chunk_eq hash fileChunks fileData filename id meta hmeta,
      if_neg (by omega), pyIndex_oob meta.chunks id hid]

theorem c8_get_chunk_amended_witness :
    get_chunk (fun l => "h" ++ toString l.length)
        [("f", ⟨3, "h3", [⟨0, 2, "h2"⟩, ⟨1, 1, "h1"⟩]⟩)]
        [("f", [10, 11, 12])] "f" ((1 : Nat) : Int) =
      .chunk [12] false ∧
    get_chunk (fun l => "h" ++ toString l.length)
        [("f", ⟨3, "h3", [⟨0, 2, "h2"⟩, ⟨1, 1, "h1"⟩]⟩)]
        [("f", [10, 11, 12])] "f" (2 : Int) = .noChunk ∧
    get_chunk (fun l => "h" ++ toString l.length)
        [("f", ⟨3, "h3", [⟨0, 2, "h2"⟩, ⟨1, 1, "h1"⟩]⟩)]
        [("f", [10, 11, 12])] "g" (0 : Int) = .noChunk ∧
    get_chunk (fun l => "h" ++ toString l.length)
        [("f", ⟨3, "h3", [⟨0, 2, "h2"⟩, ⟨1, 1, "h1"⟩]⟩)]
        [("f", [10, 11, 12])] "f" (-3 : Int) = .indexError := by
  have h := c8_get_chunk_amended (fun l => "h" ++ toString l.length)
    [("f", ⟨3, "h3", [⟨0, 2, "h2"⟩, ⟨1, 1, "h1"⟩]⟩)]
    [("f", [10, 11, 12])] "f" ⟨3, "h3", [⟨0, 2, "h2"⟩, ⟨1, 1, "h1"⟩]⟩
    [10, 11, 12] (by decide) (by decide)
  refine ⟨?_, ?_, ?_, ?_⟩
  · have h3 := (h.2.2.1 1 (by decide)).1
    rw [h3]
    decide
  · exact h.2.1 2 (by decide)
  · exact h.1 "g" 0 (by decide)
  · exact h.2.2.2.2 (-3) (by decide)

/-! ## Chunk-fetch lemmas (client.py `request_chunk`,
`download_chunk_worker`). -/

theorem recvLoop_nil (cs : Nat) (received : List Nat)
    (h : received.length < cs) : recvLoop cs received [] = .failed := by
  show (if received.length < cs then FetchResult.failed
    else .data received) = .failed
  rw [if_pos h]

theorem recvLoop_done (cs : Nat) (received : List Nat)
    (events : List RecvEvent) (h : ¬ received.length < cs) :
    recvLoop cs received events = .data received := by
  cases events with
  | nil =>
    show (if received.length < cs then FetchResult.failed
      else .data received) = .data received
    rw [if_neg h]
  | cons e rest =>
    show (if received.length < cs then _ else FetchResult.data received) =
      .data received
    rw [if_neg h]

theorem recvLoop_timeout (cs : Nat) (received : List Nat)
    (rest : List RecvEvent) (h : received.length < cs) :
    recvLoop cs received (.timeoutExc :: rest) = .failed := by
  show (if received.length < cs then FetchResult.failed
    else .data received) = .failed
  rw [if_pos h]

theorem recvLoop_bytes (cs : Nat) (received b : List Nat)
    (rest : List RecvEvent) (h : received.length < cs) :
    recvLoop cs received (.bytes b :: rest) =
      if received.length = 0 ∧ b = chunkNotFoundBytes then .failed
      else if b = [] then .data received
      else recvLoop cs (received ++ b) rest := by
  show (if received.length < cs then
    (if received.length = 0 ∧ b = chunkNotFoundBytes then FetchResult.failed
     else if b = [] then .data received
     else recvLoop cs (received ++ b) rest)
    else .data received) = _
  rw [if_pos h]

/-- C3, counterexample: a connection that closes after 2 of 4 advertised
bytes makes `request_chunk` return the partial byte string, and the worker
records it as a completed chunk instead of requeueing it. -/
theorem c3_partial_chunk_counterexample :
    request_chunk 4 [.bytes [1, 2], .bytes []] = .data [1, 2] ∧
    download_chunk_worker_step (.data [1, 2]) =
      ⟨true, false, false⟩ ∧
    (2 : Nat) ≠ 4 := by
  refine ⟨?_, ?_, ?_⟩ <;> decide

/-- C3 (amended): a fetch that raises a timeout always fails (the
`except socket.timeout` clause names a non-exception class attribute, so the
dead partial-return branch under it is unreachable and the outer handler
returns `None`); a `CHUNK_NOT_FOUND` sentinel as first data fails; a failed
fetch or an empty byte string marks the seeder unavailable and requeues the
chunk; a full-size transfer is returned whole; but a connection closed after
a non-empty partial transfer returns the partial bytes, and the worker
records any non-empty result as completed — even a partial one. -/
theorem c3_partial_chunk_amended :
    (∀ (cs : Nat) (received : List Nat) (rest : List RecvEvent),
      received.length < cs →
      recvLoop cs received (.timeoutExc :: rest) = .failed) ∧
    (∀ (cs : Nat) (rest : List RecvEvent), 0 < cs →
      request_chunk cs (.bytes chunkNotFoundBytes :: rest) = .failed) ∧
    (download_chunk_worker_step .failed = ⟨false, true, true⟩ ∧
      download_chunk_worker_step (.data []) = ⟨false, true, true⟩) ∧
    (∀ (b : List Nat), b ≠ [] →
      download_chunk_worker_step (.data b) = ⟨true, false, false⟩) ∧
    (∀ (cs : Nat) (b : List Nat) (rest : List RecvEvent),
      b.length = cs → 0 < cs → b ≠ chunkNotFoundBytes →
      request_chunk cs (.bytes b :: rest) = .data b) ∧
    (∀ (cs : Nat) (b : List Nat) (rest : List RecvEvent),
      0 < b.length → b.length < cs → b ≠ chunkNotFoundBytes →
      request_chunk cs (.bytes b :: .bytes [] :: rest) = .data b ∧
        download_chunk_worker_step
          (request_chunk cs (.bytes b :: .bytes [] :: rest)) =
          ⟨true, false, false⟩) := by
  refine ⟨?_, ?_, ⟨rfl, rfl⟩, ?_, ?_, ?_⟩
  · intro cs received rest h
    exact recvLoop_timeout cs received rest h
  · intro cs rest h0
    unfold request_chunk
    rw [recvLoop_bytes cs [] chunkNotFoundBytes rest (by simpa using h0),
      if_pos ⟨rfl, rfl⟩]
  · intro b hb
    show (if b = [] then _ else _) = _
    rw [if_neg hb]
  · intro cs b rest hlen h0 hsent
    unfold request_chunk
    rw [recvLoop_bytes cs [] b rest (by simpa using h0),
      if_neg (fun hc => hsent hc.2),
      if_neg (by
        intro hc
        rw [hc] at hlen
        simp at hlen
        omega),
      List.nil_append,
      recvLoop_done cs b rest (by omega)]
  · intro cs b rest hpos hlt hsent
    have hbne : b ≠ [] := by
      intro hc
      rw [hc] at hpos
      simp at hpos
    have h1 : request_chunk cs (.bytes b :: .bytes [] :: rest) = .data b := by
      unfold request_chunk
      rw [recvLoop_bytes cs [] b (.bytes [] :: rest) (by simp; omega),
        if_neg (fun hc => hsent hc.2), if_neg hbne, List.nil_append,
        recvLoop_bytes cs b [] rest hlt,
        if_neg (by intro hc; omega), if_pos rfl]
    refine ⟨h1, ?_⟩
    rw [h1]
    show (if b = [] then _ else _) = _
    rw [if_neg hbne]

/-! ## Reassembly lemmas (client.py `reassemble_file`, `download_file`). -/

theorem insertAsc_perm (n : Nat) (l : List Nat) :
    (insertAsc n l).Perm (n :: l) := by
  induction l with
  | nil => exact List.Perm.refl _
  | cons m t ih =>
    show (if n ≤ m then n :: m :: t else m :: insertAsc n t).Perm (n :: m :: t)
    by_cases hle : n ≤ m
    · rw [if_pos hle]
    · rw [if_neg hle]
      exact (ih.cons m).trans (List.Perm.swap n m t)

theorem sortAsc_perm (l : List Nat) : (sortAsc l).Perm l := by
  induction l with
  | nil => exact List.Perm.refl _
  | cons x t ih =>
    show (insertAsc x (sortAsc t)).Perm (x :: t)
    exact (insertAsc_perm x (sortAsc t)).trans (ih.cons x)

theorem insertAsc_sorted (n : Nat) (l : List Nat)
    (h : l.Pairwise (· ≤ ·)) : (insertAsc n l).Pairwise (· ≤ ·) := by
  induction l with
  | nil => simp [insertAsc]
  | cons m t ih =>
    rw [List.pairwise_cons] at h
    show (if n ≤ m then n :: m :: t else m :: insertAsc n t).Pairwise (· ≤ ·)
    by_cases hle : n ≤ m
    · rw [if_pos hle, List.pairwise_cons]
      refine ⟨?_, List.pairwise_cons.mpr h⟩
      intro b hb
      rcases List.mem_cons.mp hb with rfl | hbt
      · exact hle
      · exact Nat.le_trans hle (h.1 b hbt)
    · rw [if_neg hle, List.pairwise_cons]
      refine ⟨?_, ih h.2⟩
      intro b hb
      have hmem := (insertAsc_perm n t).mem_iff.mp hb
      rcases List.mem_cons.mp hmem with rfl | hbt
      · omega
      · exact h.1 b hbt

theorem sortAsc_sorted (l : List Nat) : (sortAsc l).Pairwise (· ≤ ·) := by
  induction l with
  | nil => simp [sortAsc]
  | cons x t ih => exact insertAsc_sorted x (sortAsc t) ih

/-- C1, counterexample: a fresh download (the filename is not in the
client's own `file_chunks`) of a file whose seeder-advertised digest is
`"d"` completes with every chunk present; the reassembled output hashes to
`"x" ≠ "d"`, yet no digest comparison is performed at all
(`verification = none` — in particular not against the advertised `"d"`)
and the download is reported complete, not corrupt. -/
theorem c1_verify_counterexample :
    download_finish (fun _ => "x") [] "f" 1 [(0, [7])] =
      .success ⟨[7], none, true⟩ ∧
    (fun _ : List Nat => "x") [7] ≠ "d" ∧
    (ReassembleResult.mk [7] none true).verification ≠
      some ("d", (fun _ : List Nat => "x") [7]) := by
  refine ⟨?_, ?_, ?_⟩ <;> decide

/-- C1 (amended): when all chunks are present, `download_file` reassembles
them in ascending chunk-id order and always reports the download complete;
a whole-file digest comparison happens only when the filename is already in
the client's own `shared_files.json` metadata, and then against that local
stored checksum — never against the digest advertised by the source
seeder — and a mismatch is only logged, leaving the outcome a success. -/
theorem c1_verify_amended (hash : List Nat → String)
    (fileChunks : List (String × FileMeta)) (filename : String)
    (total_chunks : Nat) (downloaded : List (Nat × List Nat))
    (r : ReassembleResult)
    (h : download_finish hash fileChunks filename total_chunks downloaded =
      .success r) :
    r.downloadComplete = true ∧
    r.verification =
      (alGet fileChunks filename).map (fun m => (m.checksum, hash r.output)) ∧
    (∀ m, alGet fileChunks filename = some m → hash r.output ≠ m.checksum →
      r.downloadComplete = true) ∧
    r.output = ((sortAsc (downloaded.map Prod.fst)).map
      (fun i => (alGet downloaded i).getD [])).flatten ∧
    (sortAsc (downloaded.map Prod.fst)).Pairwise (· ≤ ·) ∧
    (sortAsc (downloaded.map Prod.fst)).Perm (downloaded.map Prod.fst) ∧
    downloaded.length = total_chunks := by
  unfold download_finish at h
  by_cases hlen : downloaded.length ≠ total_chunks
  · rw [if_pos hlen] at h
    exact absurd h (by simp)
  · rw [if_neg hlen] at h
    injection h with h
    subst h
    refine ⟨rfl, rfl, fun m _ _ => rfl, rfl, ?_, ?_, ?_⟩
    · exact sortAsc_sorted (downloaded.map Prod.fst)
    · exact sortAsc_perm (downloaded.map Prod.fst)
    · omega

theorem c1_verify_witness :
    download_finish (fun l => "h" ++ toString l.length)
        [("f", ⟨2, "h2", [⟨0, 2, "h2"⟩]⟩)] "f" 2 [(1, [5, 6]), (0, [1, 2])] =
      .success ⟨[1, 2, 5, 6], some ("h2", "h4"), true⟩ ∧
    (ReassembleResult.mk [1, 2, 5, 6] (some ("h2", "h4")) true).verification =
      (alGet [("f", (⟨2, "h2", [⟨0, 2, "h2"⟩]⟩ : FileMeta))] "f").map
        (fun m => (m.checksum,
          (fun l : List Nat => "h" ++ toString l.length) [1, 2, 5, 6])) ∧
    (ReassembleResult.mk [1, 2, 5, 6] (some ("h2", "h4"))
      true).downloadComplete = true := by
  have h := c1_verify_amended (fun l => "h" ++ toString l.length)
    [("f", ⟨2, "h2", [⟨0, 2, "h2"⟩]⟩)] "f" 2 [(1, [5, 6]), (0, [1, 2])]
    ⟨[1, 2, 5, 6], some ("h2", "h4"), true⟩ (by decide)
  exact ⟨by decide, h.2.1, h.1⟩

/-! ## Response-code lemmas (tracker responses, claim about status
prefixes). -/

/-- C2: `process_peer_requests` dispatches only on REGISTER, LIST_ACTIVE,
LIST_FILES, DISCONNECT, KEEP_ALIVE, PING and GET_PEERS. An `UPDATE_FILES`
request with a valid JSON file list, or a `CHANGE_USERNAME` request, sent
by a peer that is currently registered (`("h", 1)`, registered by
`regDemoRun`), falls through to the unknown-request branch: the tracker
replies with the literal `400 Bad Request: Unknown request type.` — never
a 200-class response and never `USERNAME_CHANGED` — and the tracker state
is unchanged, so the peer's advertised file set is not replaced. -/
theorem c2_unhandled_requests :
    (alGet (trackerRun (initTracker 30 10) regDemoRun).active_peers
        ("h", 1)).isSome = true ∧
    process_peer_requests (fun _ => JsonFilesParse.parseError)
        (trackerRun (initTracker 30 10) regDemoRun)
        "UPDATE_FILES alice \x7b\"files\": []\x7d" ("h", 1) 1 =
      (trackerRun (initTracker 30 10) regDemoRun,
        some "400 Bad Request: Unknown request type.") ∧
    process_peer_requests (fun _ => JsonFilesParse.parseError)
        (trackerRun (initTracker 30 10) regDemoRun)
        "CHANGE_USERNAME alice bob 127.0.0.1:9000" ("h", 1) 1 =
      (trackerRun (initTracker 30 10) regDemoRun,
        some "400 Bad Request: Unknown request type.") :=
  ⟨by decide, by decide, by decide⟩

end PyTorrent
